import Mathlib

/-!
Verification of the plan-search engine of the hap repository (src/src/lib.rs).

The Rust source is shallowly embedded: `f64` becomes `ℚ`, `usize` becomes `ℕ`,
`BTreeSet<Property>` becomes `Finset Property`, `BTreeMap` caches become
functions into `Option`, the opaque `codegen` closure is omitted (it only
produces Python side effects) and the `profile` closure is represented by the
pair of profiles it returns.  Panics (`assert!`, `unwrap`) become `Except` /
`Option` failures, and the unbounded search loop of `a_star` takes explicit
fuel; a `some` result corresponds to a run of the Rust loop that terminated
with an empty heap.
-/

/-- Tensor relations, from `enum TensorRelation` (lib.rs:212-217).
The `Dimension` payload is the Rust `u8`; dimension values in the claims never
approach 256, so it is embedded as `ℕ`. -/
inductive TensorRelation : Type where
  | Gather (dim : ℕ)
  | Reduce
  | Identity
deriving DecidableEq, Repr

/-- Properties, from `enum Property` (lib.rs:164-173).  The dense integer id
newtypes (`RTensorId`, `PlaceholderId`, `ParameterId`, `OpId`) are embedded as
`ℕ`. -/
inductive Property : Type where
  | HasTensor (tensor_id : ℕ) (relation : TensorRelation)
  | Finished
  | AllowCommunication (tensor_id : ℕ)
  | AllowPlaceholder (placeholder_id : ℕ)
  | AllowGetAttr (parameter_id : ℕ)
  | AllowComputation (op_id : ℕ)
deriving DecidableEq, Repr

/-- `Property::identity` (lib.rs:199-201). -/
def Property.identity (tensor_id : ℕ) : Property :=
  Property.HasTensor tensor_id TensorRelation.Identity

/-- `Property::gather` (lib.rs:203-205). -/
def Property.gather (tensor_id : ℕ) (dim : ℕ) : Property :=
  Property.HasTensor tensor_id (TensorRelation.Gather dim)

/-- `Property::reduce` (lib.rs:207-209). -/
def Property.reduce (tensor_id : ℕ) : Property :=
  Property.HasTensor tensor_id TensorRelation.Reduce

/-- `struct Profile` (lib.rs:287-294): flops and bytes moved by each
collective, embedded over `ℚ`. -/
structure Profile : Type where
  flops : ℚ
  all_reduce : ℚ
  all_gather : ℚ
  all_to_all : ℚ
  reduce_scatter : ℚ
deriving DecidableEq, Repr

instance : Inhabited Profile := ⟨⟨0, 0, 0, 0, 0⟩⟩

/-- `struct ClusterInfo` (lib.rs:1494-1501). -/
structure ClusterInfo : Type where
  device_flops : List ℚ
  all_reduce_bandwidth : ℚ
  all_gather_bandwidth : ℚ
  all_to_all_bandwidth : ℚ
  reduce_scatter_bandwidth : ℚ
deriving DecidableEq, Repr

/-- `struct Profiler` (lib.rs:262-267).  The `rgraph` and `module_info`
references are omitted: no function verified here reads them. -/
structure Profiler : Type where
  cluster_info : ClusterInfo
deriving DecidableEq, Repr

/-- `struct HoareTriple` (lib.rs:127-135).  The `codegen` closure is omitted
(it only emits Python code); the `profile` closure is represented by the
`(forward, backward)` profile pair it returns. -/
structure HoareTriple : Type where
  pre_conditions : List Property
  post_conditions : List Property
  negative_post_conditions : List Property
  instruction : String
  profile : Profile × Profile
deriving DecidableEq, Repr

instance : Inhabited HoareTriple := ⟨⟨[], [], [], "", (default, default)⟩⟩

/-- The `epsilon` constant of `HoareTriple::get_cost` (lib.rs:221). -/
def epsilon : ℚ := 1 / 1000000

/-- `HoareTriple::get_cost` (lib.rs:220-259): the entire cost computation in
the source is commented out and the function returns the constant `epsilon`
for every triple, profiler and sharding-ratio vector. -/
def HoareTriple.get_cost (_t : HoareTriple) (_profiler : Profiler)
    (_sharding_ratios : List ℚ) : ℚ :=
  epsilon

/-- Maximum of a list of rationals; embeds `iter().map(FloatOrd).max()`,
which is `None` exactly on an empty iterator (the source `unwrap`s it). -/
def listMax : List ℚ → Option ℚ
  | [] => none
  | x :: xs => some (xs.foldl max x)

/-- `Profiler::get_time` (lib.rs:270-283).  `none` models the `unwrap` panic
on an empty iterator. -/
def Profiler.get_time (profiler : Profiler) (profile : Profile)
    (sharding_ratios : List ℚ) : Option ℚ := do
  let computation_time ← listMax
    (((profiler.cluster_info.device_flops.zip sharding_ratios).map
      (fun dr => profile.flops * dr.2 / dr.1)))
  let maximum_ratio ← listMax sharding_ratios
  pure (computation_time +
    (profile.all_gather * maximum_ratio / profiler.cluster_info.all_gather_bandwidth +
     profile.all_reduce * maximum_ratio / profiler.cluster_info.all_reduce_bandwidth +
     profile.all_to_all * maximum_ratio / profiler.cluster_info.all_to_all_bandwidth +
     profile.reduce_scatter * maximum_ratio / profiler.cluster_info.reduce_scatter_bandwidth))

/-- `struct IndexedHoareTripleSet` (lib.rs:473-477).  The two condition
indexes are derived views: `IndexedHoareTripleSet::new` pushes triple ids in
increasing order, so the list stored under a property equals the ascending
list of ids whose triple mentions that property; the lookup functions below
return exactly that list (and `[]` for an absent key, as in the source). -/
structure IndexedHoareTripleSet : Type where
  triples : List HoareTriple
deriving DecidableEq, Repr

/-- `triple_set[triple_id]` (lib.rs:507-513); indexing out of range panics in
the source and returns the default triple here (the search only ever indexes
valid ids). -/
def IndexedHoareTripleSet.triple (ts : IndexedHoareTripleSet) (tid : ℕ) : HoareTriple :=
  ts.triples.getD tid default

/-- `IndexedHoareTripleSet::get_triples_with_pre_condition` (lib.rs:496-499). -/
def IndexedHoareTripleSet.get_triples_with_pre_condition
    (ts : IndexedHoareTripleSet) (property : Property) : List ℕ :=
  (List.range ts.triples.length).filter
    (fun tid => decide (property ∈ (ts.triple tid).pre_conditions))

/-- `IndexedHoareTripleSet::get_triples_with_post_condition` (lib.rs:501-504). -/
def IndexedHoareTripleSet.get_triples_with_post_condition
    (ts : IndexedHoareTripleSet) (property : Property) : List ℕ :=
  (List.range ts.triples.length).filter
    (fun tid => decide (property ∈ (ts.triple tid).post_conditions))

/-- The sufficient irrelevance condition tested by
`remove_irrelavent_properties` (lib.rs:383-394) for one property against the
original (pre-removal) property set. -/
def irrelevantIn (ts : IndexedHoareTripleSet) (properties : Finset Property)
    (property : Property) : Prop :=
  property ≠ Property.Finished ∧
  ∀ tid ∈ ts.get_triples_with_pre_condition property,
    ∃ q ∈ (ts.triple tid).pre_conditions,
      q ∉ properties ∧ ts.get_triples_with_post_condition q = []

instance (ts : IndexedHoareTripleSet) (properties : Finset Property) :
    DecidablePred (irrelevantIn ts properties) := fun property => by
  unfold irrelevantIn; infer_instance

/-- `remove_irrelavent_properties` (lib.rs:382-399): the irrelevant properties
are collected against the original set and then removed, i.e. the result keeps
exactly the properties that are not irrelevant in the original set. -/
def remove_irrelavent_properties (properties : Finset Property)
    (ts : IndexedHoareTripleSet) : Finset Property :=
  properties.filter (fun property => ¬ irrelevantIn ts properties property)

/-- `struct Program` (lib.rs:321-327). -/
structure Program : Type where
  triple_ids : List ℕ
  properties : Finset Property
  cost : ℚ
  ecost : ℚ
deriving DecidableEq

/-- `Program::empty` (lib.rs:330-332). -/
def Program.empty (properties : List Property) : Program :=
  { triple_ids := [], properties := properties.toFinset, cost := 0, ecost := 0 }

/-- The hard-coded `&[0.25; 4]` sharding ratios of `with_a_new_triple`
(lib.rs:348). -/
def quarterShardingRatios : List ℚ := [1/4, 1/4, 1/4, 1/4]

/-- `Program::with_a_new_triple` (lib.rs:334-352): append the triple, remove
its negative post-conditions from the old property set, add its
post-conditions, garbage-collect irrelevant properties, and add the triple's
cost. -/
def Program.with_a_new_triple (P : Program) (triple_id : ℕ)
    (ts : IndexedHoareTripleSet) (profiler : Profiler) : Program :=
  { triple_ids := P.triple_ids ++ [triple_id],
    properties := remove_irrelavent_properties
      ((P.properties.filter
          (fun p => p ∉ (ts.triple triple_id).negative_post_conditions)) ∪
        (ts.triple triple_id).post_conditions.toFinset) ts,
    cost := P.cost + (ts.triple triple_id).get_cost profiler quarterShardingRatios,
    ecost := 0 }

/-- The property set produced by firing `triple_id` from property set `S`;
`(P.with_a_new_triple tid ts prof).properties` is definitionally
`stepProps ts P.properties tid`. -/
def stepProps (ts : IndexedHoareTripleSet) (S : Finset Property) (triple_id : ℕ) :
    Finset Property :=
  remove_irrelavent_properties
    ((S.filter (fun p => p ∉ (ts.triple triple_id).negative_post_conditions)) ∪
      (ts.triple triple_id).post_conditions.toFinset) ts

/-- Availability from a bare property set.  `Program::find_available_triples`
(lib.rs:354-361) first collects into a `BTreeSet` the ids of all triples
having some currently-held property among their pre-conditions (so the result
is the ascending list of such ids), then keeps those whose pre-conditions all
hold and which have at least one missing post-condition. -/
def findAvailProps (ts : IndexedHoareTripleSet) (S : Finset Property) : List ℕ :=
  ((List.range ts.triples.length).filter
      (fun tid => decide (∃ p ∈ S, p ∈ (ts.triple tid).pre_conditions))).filter
    (fun tid => decide
      ((∀ p ∈ (ts.triple tid).pre_conditions, p ∈ S) ∧
       (∃ q ∈ (ts.triple tid).post_conditions, q ∉ S)))

/-- `Program::find_available_triples` (lib.rs:354-361). -/
def Program.find_available_triples (P : Program) (ts : IndexedHoareTripleSet) :
    List ℕ :=
  findAvailProps ts P.properties

/-- `Program::is_complete` (lib.rs:363-365): some active property equals
`Finished`. -/
def Program.is_complete (P : Program) : Prop :=
  Property.Finished ∈ P.properties

instance (P : Program) : Decidable P.is_complete := by
  unfold Program.is_complete; infer_instance

theorem with_a_new_triple_properties (P : Program) (tid : ℕ)
    (ts : IndexedHoareTripleSet) (profiler : Profiler) :
    (P.with_a_new_triple tid ts profiler).properties = stepProps ts P.properties tid :=
  rfl

theorem with_a_new_triple_cost (P : Program) (tid : ℕ)
    (ts : IndexedHoareTripleSet) (profiler : Profiler) :
    (P.with_a_new_triple tid ts profiler).cost = P.cost + epsilon :=
  rfl

theorem with_a_new_triple_triple_ids (P : Program) (tid : ℕ)
    (ts : IndexedHoareTripleSet) (profiler : Profiler) :
    (P.with_a_new_triple tid ts profiler).triple_ids = P.triple_ids ++ [tid] :=
  rfl

/-! ### The search loop (`a_star`, lib.rs:515-561) -/

/-- The cost + ecost total ordering key of `ProgramHeapEntry` (lib.rs:401-432). -/
def Program.total_cost (P : Program) : ℚ := P.cost + P.ecost

/-- The search cache `BTreeMap<BTreeSet<Property>, f64>` as a function. -/
def Cache : Type := Finset Property → Option ℚ

/-- `BTreeMap::insert`: overwrite the entry at one key. -/
def Cache.insert (cache : Cache) (key : Finset Property) (value : ℚ) : Cache :=
  fun S => if S = key then some value else cache S

/-- Pop a minimum-`total_cost` entry from the heap, as `BinaryHeap::pop` does
through the reversed `Ord` of `ProgramHeapEntry`.  `BinaryHeap` leaves the
choice among equal keys unspecified; this embedding takes the earliest, and no
theorem below depends on the choice. -/
def popMin : List Program → Option (Program × List Program)
  | [] => none
  | P :: rest =>
    match popMin rest with
    | none => some (P, [])
    | some (Q, rest') =>
      if Q.total_cost < P.total_cost then some (Q, P :: rest') else some (P, rest)

/-- The skip condition `best_program.as_ref().map(|p| p.cost < program.cost)
.unwrap_or(false)` (lib.rs:530). -/
def bestSkip (best : Option Program) (P : Program) : Bool :=
  match best with
  | none => false
  | some b => decide (b.cost < P.cost)

/-- The skip condition `cached_cost < program.cost` (lib.rs:534). -/
def cacheSkip (cache : Cache) (P : Program) : Bool :=
  match cache P.properties with
  | none => false
  | some c => decide (c < P.cost)

/-- The update of `best_program` on a complete program (lib.rs:542-545). -/
def updateBest (best : Option Program) (P : Program) : Option Program :=
  match best with
  | none => some P
  | some b => if P.cost < b.cost then some P else some b

/-- The expansion loop body (lib.rs:547-554): for each available triple id
build the successor program, skip it when the cache already holds its property
set at a cost at most as low, and otherwise cache and push it. -/
def expandFold (ts : IndexedHoareTripleSet) (profiler : Profiler) (P : Program) :
    List ℕ → List Program → Cache → List Program × Cache
  | [], heap, cache => (heap, cache)
  | tid :: L, heap, cache =>
    let P' := P.with_a_new_triple tid ts profiler
    match cache P'.properties with
    | some c =>
      if c ≤ P'.cost then expandFold ts profiler P L heap cache
      else expandFold ts profiler P L (P' :: heap) (cache.insert P'.properties P'.cost)
    | none => expandFold ts profiler P L (P' :: heap) (cache.insert P'.properties P'.cost)

/-- The `while let Some(...) = heap.pop()` loop of `a_star` (lib.rs:525-558),
with explicit fuel.  An exhausted heap returns the best program found
(`best_program.unwrap()` panics when none exists, giving `none` here);
exhausted fuel with a non-empty heap also gives `none`, so a `some` result
always corresponds to a run the Rust loop finished. -/
def aStarLoop (ts : IndexedHoareTripleSet) (profiler : Profiler) :
    ℕ → List Program → Cache → Option Program → Option Program
  | 0, heap, _, best =>
    (match popMin heap with
     | none => best
     | some _ => none)
  | fuel + 1, heap, cache, best =>
    match popMin heap with
    | none => best
    | some (P, rest) =>
      if bestSkip best P then aStarLoop ts profiler fuel rest cache best
      else if cacheSkip cache P then aStarLoop ts profiler fuel rest cache best
      else if P.is_complete then aStarLoop ts profiler fuel rest cache (updateBest best P)
      else
        aStarLoop ts profiler fuel
          (expandFold ts profiler P (P.find_available_triples ts) rest cache).1
          (expandFold ts profiler P (P.find_available_triples ts) rest cache).2
          best

/-- `a_star` (lib.rs:515-561): seed the heap with the empty program over the
initial properties, seed the cache at cost 0, and run the loop. -/
def a_star (fuel : ℕ) (ts : IndexedHoareTripleSet)
    (initial_properties : List Property) (profiler : Profiler) : Option Program :=
  aStarLoop ts profiler fuel [Program.empty initial_properties]
    (Cache.insert (fun _ => none) initial_properties.toFinset 0) none

/-! ### Sharding utilities (`sharding_round`, lib.rs:1509-1522) -/

/-- The Rust saturating cast `f64 as usize` applied to `ratio * length`
(lib.rs:1510): truncation toward zero, negative values clamped to 0. -/
def ratioSeed (x : ℚ) : ℕ := (Int.floor x).toNat

/-- The initial bucket lengths `(x * full_length as f64) as usize`
(lib.rs:1510). -/
def seedLengths (full_length : ℕ) (sharding_ratios : List ℚ) : List ℕ :=
  sharding_ratios.map (fun x => ratioSeed (x * full_length))

/-- The fold for `Iterator::max_by_key` over an enumerated key list: the
running best is replaced whenever the new key is at least as large, so among
equal keys the last (largest) index wins, exactly as `max_by_key` specifies. -/
def lastArgmaxAux (k : ℕ) (best : Option (ℕ × ℚ)) : List ℚ → Option (ℕ × ℚ)
  | [] => best
  | x :: xs =>
    lastArgmaxAux (k + 1)
      (match best with
       | none => some (k, x)
       | some b => if b.2 ≤ x then some (k, x) else b) xs

/-- Index of the last maximal element of a key list (`None` on an empty
list, where the source `unwrap`s). -/
def lastArgmax (keys : List ℚ) : Option ℕ :=
  (lastArgmaxAux 0 none keys).map Prod.fst

/-- The keys `ratio - length as f64 / full_length as f64` of the zipped
ratio/length iterator (lib.rs:1513-1516). -/
def diffKeys (sharding_ratios : List ℚ) (lengths : List ℕ) (full_length : ℕ) :
    List ℚ :=
  (sharding_ratios.zip lengths).map (fun rl => rl.1 - (rl.2 : ℚ) / (full_length : ℚ))

/-- `max_diff_index` (lib.rs:1513-1517): the index produced by `max_by_key`
over the enumerated zip of ratios and current lengths. -/
def maxDiffIndex (sharding_ratios : List ℚ) (lengths : List ℕ) (full_length : ℕ) :
    Option ℕ :=
  lastArgmax (diffKeys sharding_ratios lengths full_length)

/-- The `while sharding_lengths.sum() < full_length` loop (lib.rs:1512-1520).
Each iteration increments one in-range bucket, raising the sum by exactly one,
so the remaining gap `full_length - sum` is the loop counter; `error` models
the `unwrap` panic of `max_by_key` on an empty iterator. -/
def shardingLoop (sharding_ratios : List ℚ) (full_length : ℕ) :
    ℕ → List ℕ → Except Unit (List ℕ)
  | 0, lengths => Except.ok lengths
  | gap + 1, lengths =>
    match maxDiffIndex sharding_ratios lengths full_length with
    | none => Except.error ()
    | some i => shardingLoop sharding_ratios full_length gap (lengths.set i (lengths.getD i 0 + 1))

/-- `sharding_round` (lib.rs:1509-1522).  `error` models a panic: either the
`assert!(sum <= full_length)` on the seeded lengths, or the `unwrap` inside
the loop. -/
def sharding_round (full_length : ℕ) (sharding_ratios : List ℚ) :
    Except Unit (List ℕ) :=
  let sharding_lengths := seedLengths full_length sharding_ratios
  if sharding_lengths.sum ≤ full_length then
    shardingLoop sharding_ratios full_length
      (full_length - sharding_lengths.sum) sharding_lengths
  else Except.error ()

/-- The first-maximal-index fold: the running best is replaced only when the
new key is strictly larger, so among equal keys the smallest index wins.  This
follows the spec's words for the tie-break of `sharding_round` ("deterministic
tie-break: smallest index") and is *not* what the source does. -/
def firstArgmaxAux (k : ℕ) (best : Option (ℕ × ℚ)) : List ℚ → Option (ℕ × ℚ)
  | [] => best
  | x :: xs =>
    firstArgmaxAux (k + 1)
      (match best with
       | none => some (k, x)
       | some b => if b.2 < x then some (k, x) else b) xs

/-- Index of the first maximal element of a key list. -/
def firstArgmax (keys : List ℚ) : Option ℕ :=
  (firstArgmaxAux 0 none keys).map Prod.fst

/-- Modelled from the spec: the `sharding_round` algorithm as the spec
describes it, with the smallest-index tie-break, for comparison with the
source's largest-index tie-break. -/
def shardingLoopSpec (sharding_ratios : List ℚ) (full_length : ℕ) :
    ℕ → List ℕ → Except Unit (List ℕ)
  | 0, lengths => Except.ok lengths
  | gap + 1, lengths =>
    match firstArgmax (diffKeys sharding_ratios lengths full_length) with
    | none => Except.error ()
    | some i => shardingLoopSpec sharding_ratios full_length gap (lengths.set i (lengths.getD i 0 + 1))

/-- Modelled from the spec: `sharding_round` with the spec's smallest-index
tie-break. -/
def sharding_round_spec (full_length : ℕ) (sharding_ratios : List ℚ) :
    Except Unit (List ℕ) :=
  let sharding_lengths := seedLengths full_length sharding_ratios
  if sharding_lengths.sum ≤ full_length then
    shardingLoopSpec sharding_ratios full_length
      (full_length - sharding_lengths.sum) sharding_lengths
  else Except.error ()

/-! ### Lemmas about the argmax fold of `sharding_round` -/

theorem lastArgmaxAux_some_ne_none (l : List ℚ) :
    ∀ (k : ℕ) (b : ℕ × ℚ), lastArgmaxAux k (some b) l ≠ none := by
  induction l with
  | nil => intro k b h; simp [lastArgmaxAux] at h
  | cons x xs ih =>
    intro k b
    simp only [lastArgmaxAux]
    split
    · exact ih (k + 1) (k, x)
    · exact ih (k + 1) _

theorem lastArgmax_eq_none_iff (keys : List ℚ) : lastArgmax keys = none ↔ keys = [] := by
  cases keys with
  | nil => simp [lastArgmax, lastArgmaxAux]
  | cons x xs =>
    simp only [lastArgmax, lastArgmaxAux]
    constructor
    · intro h
      rcases haux : lastArgmaxAux (0 + 1) (some (0, x)) xs with _ | p
      · exact absurd haux (lastArgmaxAux_some_ne_none xs (0 + 1) (0, x))
      · rw [haux] at h; simp at h
    · intro h; cases h

theorem lastArgmaxAux_char (l : List ℚ) :
    ∀ (k : ℕ) (best : Option (ℕ × ℚ)) (i : ℕ) (v : ℚ),
    lastArgmaxAux k best l = some (i, v) →
    ((best = some (i, v)) ∨ (k ≤ i ∧ i < k + l.length ∧ v = l.getD (i - k) 0)) ∧
    (∀ m, m < l.length → l.getD m 0 ≤ v) ∧
    (∀ m, m < l.length → i < k + m → l.getD m 0 < v) ∧
    (∀ b : ℕ × ℚ, best = some b → b.2 ≤ v) := by
  induction l with
  | nil =>
    intro k best i v h
    simp only [lastArgmaxAux] at h
    refine ⟨Or.inl h, ?_, ?_, ?_⟩
    · intro m hm; simp at hm
    · intro m hm; simp at hm
    · intro b hb; rw [h] at hb; cases hb; rfl
  | cons x xs ih =>
    intro k best i v h
    cases best with
    | none =>
      simp only [lastArgmaxAux] at h
      obtain ⟨hA, hB, hC, hD⟩ := ih (k + 1) (some (k, x)) i v h
      have hxv : x ≤ v := hD (k, x) rfl
      refine ⟨?_, ?_, ?_, ?_⟩
      · right
        rcases hA with hA | ⟨h1, h2, h3⟩
        · obtain ⟨hik, hvx⟩ := Prod.mk.injEq .. ▸ Option.some_inj.mp hA
          subst hik
          refine ⟨le_refl _, by simp, by simp [hvx]⟩
        · refine ⟨by omega, by simp; omega, ?_⟩
          have hik : i - k = (i - (k + 1)) + 1 := by omega
          rw [hik, List.getD_cons_succ]; exact h3
      · intro m hm
        cases m with
        | zero => simpa using hxv
        | succ m' => rw [List.getD_cons_succ]; exact hB m' (by simpa using hm)
      · intro m hm hkm
        cases m with
        | zero =>
          exfalso
          rcases hA with hA | ⟨h1, _, _⟩
          · obtain ⟨hik, _⟩ := Prod.mk.injEq .. ▸ Option.some_inj.mp hA
            omega
          · omega
        | succ m' =>
          rw [List.getD_cons_succ]
          exact hC m' (by simpa using hm) (by omega)
      · intro b hb; cases hb
    | some b =>
      by_cases hle : b.2 ≤ x
      · simp only [lastArgmaxAux, if_pos hle] at h
        obtain ⟨hA, hB, hC, hD⟩ := ih (k + 1) (some (k, x)) i v h
        have hxv : x ≤ v := hD (k, x) rfl
        refine ⟨?_, ?_, ?_, ?_⟩
        · right
          rcases hA with hA | ⟨h1, h2, h3⟩
          · obtain ⟨hik, hvx⟩ := Prod.mk.injEq .. ▸ Option.some_inj.mp hA
            subst hik
            refine ⟨le_refl _, by simp, by simp [hvx]⟩
          · refine ⟨by omega, by simp; omega, ?_⟩
            have hik : i - k = (i - (k + 1)) + 1 := by omega
            rw [hik, List.getD_cons_succ]; exact h3
        · intro m hm
          cases m with
          | zero => simpa using hxv
          | succ m' => rw [List.getD_cons_succ]; exact hB m' (by simpa using hm)
        · intro m hm hkm
          cases m with
          | zero =>
            exfalso
            rcases hA with hA | ⟨h1, _, _⟩
            · obtain ⟨hik, _⟩ := Prod.mk.injEq .. ▸ Option.some_inj.mp hA
              omega
            · omega
          | succ m' =>
            rw [List.getD_cons_succ]
            exact hC m' (by simpa using hm) (by omega)
        · intro b0 hb0
          cases hb0
          exact le_trans hle hxv
      · simp only [lastArgmaxAux, if_neg hle] at h
        obtain ⟨hA, hB, hC, hD⟩ := ih (k + 1) (some b) i v h
        have hbv : b.2 ≤ v := hD b rfl
        have hxb : x < b.2 := lt_of_not_le hle
        refine ⟨?_, ?_, ?_, ?_⟩
        · rcases hA with hA | ⟨h1, h2, h3⟩
          · exact Or.inl hA
          · right
            refine ⟨by omega, by simp; omega, ?_⟩
            have hik : i - k = (i - (k + 1)) + 1 := by omega
            rw [hik, List.getD_cons_succ]; exact h3
        · intro m hm
          cases m with
          | zero => simpa using le_of_lt (lt_of_lt_of_le hxb hbv)
          | succ m' => rw [List.getD_cons_succ]; exact hB m' (by simpa using hm)
        · intro m hm hkm
          cases m with
          | zero =>
            rcases hA with hA | ⟨h1, _, _⟩
            · have hb : b = (i, v) := Option.some_inj.mp hA
              have hvb : v = b.2 := by rw [hb]
              simpa [hvb] using hxb
            · omega
          | succ m' =>
            rw [List.getD_cons_succ]
            exact hC m' (by simpa using hm) (by omega)
        · intro b0 hb0
          cases hb0
          exact hbv

theorem lastArgmax_char (keys : List ℚ) (i : ℕ) (h : lastArgmax keys = some i) :
    i < keys.length ∧
    (∀ j, j < keys.length → keys.getD j 0 ≤ keys.getD i 0) ∧
    (∀ j, j < keys.length → i < j → keys.getD j 0 < keys.getD i 0) := by
  unfold lastArgmax at h
  rcases haux : lastArgmaxAux 0 none keys with _ | iv
  · rw [haux] at h; cases h
  · rw [haux] at h
    have hi : iv.1 = i := by simpa using h
    obtain ⟨hA, hB, hC, _⟩ := lastArgmaxAux_char keys 0 none iv.1 iv.2 (by rw [haux])
    rcases hA with hA | ⟨_, h2, h3⟩
    · cases hA
    · subst hi
      have hv : iv.2 = keys.getD iv.1 0 := by simpa using h3
      refine ⟨by simpa using h2, ?_, ?_⟩
      · intro j hj; rw [← hv]; exact hB j hj
      · intro j hj hij; rw [← hv]; exact hC j hj (by omega)

theorem maxDiffIndex_lt_length (sharding_ratios : List ℚ) (lengths : List ℕ)
    (full_length : ℕ) (i : ℕ)
    (h : maxDiffIndex sharding_ratios lengths full_length = some i) :
    i < sharding_ratios.length ∧ i < lengths.length := by
  have := (lastArgmax_char _ i h).1
  simp only [diffKeys, List.length_map, List.length_zip] at this
  omega

theorem maxDiffIndex_isSome (sharding_ratios : List ℚ) (lengths : List ℕ)
    (full_length : ℕ) (hr : sharding_ratios ≠ []) (hl : lengths ≠ []) :
    ∃ i, maxDiffIndex sharding_ratios lengths full_length = some i := by
  rcases h : maxDiffIndex sharding_ratios lengths full_length with _ | i
  · exfalso
    have hempty := (lastArgmax_eq_none_iff _).mp h
    have hlen : 0 < (diffKeys sharding_ratios lengths full_length).length := by
      simp only [diffKeys, List.length_map, List.length_zip]
      have h1 := List.length_pos.mpr hr
      have h2 := List.length_pos.mpr hl
      omega
    rw [hempty] at hlen
    simp at hlen
  · exact ⟨i, rfl⟩

theorem sum_set_getD_add_one (l : List ℕ) :
    ∀ i, i < l.length → (l.set i (l.getD i 0 + 1)).sum = l.sum + 1 := by
  induction l with
  | nil => intro i hi; simp at hi
  | cons x xs ih =>
    intro i hi
    cases i with
    | zero =>
      simp only [List.set_cons_zero, List.getD_cons_zero, List.sum_cons]
      omega
    | succ i' =>
      simp only [List.set_cons_succ, List.getD_cons_succ, List.sum_cons,
        ih i' (by simpa using hi)]
      omega

theorem shardingLoop_ok_sum (sharding_ratios : List ℚ) (full_length : ℕ) :
    ∀ (gap : ℕ) (lengths out : List ℕ),
    shardingLoop sharding_ratios full_length gap lengths = Except.ok out →
    out.sum = lengths.sum + gap := by
  intro gap
  induction gap with
  | zero => intro lengths out h; cases h; simp
  | succ g ih =>
    intro lengths out h
    simp only [shardingLoop] at h
    rcases hmax : maxDiffIndex sharding_ratios lengths full_length with _ | i
    · rw [hmax] at h; cases h
    · rw [hmax] at h
      have hlt := (maxDiffIndex_lt_length _ _ _ _ hmax).2
      have hsum := ih _ _ h
      rw [hsum, sum_set_getD_add_one _ _ hlt]
      omega

theorem shardingLoop_ok_of_ne_nil (sharding_ratios : List ℚ) (full_length : ℕ)
    (hr : sharding_ratios ≠ []) :
    ∀ (gap : ℕ) (lengths : List ℕ), lengths.length = sharding_ratios.length →
    ∃ out, shardingLoop sharding_ratios full_length gap lengths = Except.ok out := by
  intro gap
  induction gap with
  | zero => intro lengths _; exact ⟨lengths, rfl⟩
  | succ g ih =>
    intro lengths hlen
    have hl : lengths ≠ [] := by
      intro hnil; rw [hnil] at hlen; exact hr (List.length_eq_zero.mp hlen.symm)
    obtain ⟨i, hi⟩ := maxDiffIndex_isSome sharding_ratios lengths full_length hr hl
    obtain ⟨out, hout⟩ := ih (lengths.set i (lengths.getD i 0 + 1)) (by simpa using hlen)
    refine ⟨out, ?_⟩
    simp only [shardingLoop]
    rw [hi]
    exact hout

instance exceptDecEq {e a : Type} [DecidableEq e] [DecidableEq a] :
    DecidableEq (Except e a) := fun x y =>
  match x, y with
  | .error u, .error v =>
    if h : u = v then isTrue (by rw [h]) else isFalse (fun hh => by cases hh; exact h rfl)
  | .error _, .ok _ => isFalse (fun hh => by cases hh)
  | .ok _, .error _ => isFalse (fun hh => by cases hh)
  | .ok u, .ok v =>
    if h : u = v then isTrue (by rw [h]) else isFalse (fun hh => by cases hh; exact h rfl)

/-! ### Claims C4, C5, C6: `sharding_round` -/

/-- C4: for every length and every ratio vector whose entries sum to 1, the
list returned by `sharding_round` (when it returns one) has elementwise sum
equal to the length and every element non-negative. -/
theorem sharding_round_sum_and_nonneg (full_length : ℕ) (sharding_ratios : List ℚ)
    (_hsum : sharding_ratios.sum = 1) (out : List ℕ)
    (hok : sharding_round full_length sharding_ratios = Except.ok out) :
    out.sum = full_length ∧ ∀ x ∈ out, 0 ≤ x := by
  simp only [sharding_round] at hok
  split at hok
  · have hloop := shardingLoop_ok_sum sharding_ratios full_length _ _ _ hok
    constructor
    · omega
    · intro x _; exact Nat.zero_le x
  · cases hok

theorem sharding_round_sum_and_nonneg_witness :
    (([(1:ℚ)/2, 1/2].sum = 1) ∧ sharding_round 4 [(1:ℚ)/2, 1/2] = Except.ok [2, 2]) ∧
    (([2, 2] : List ℕ).sum = 4 ∧ ∀ x ∈ ([2, 2] : List ℕ), 0 ≤ x) :=
  ⟨⟨by norm_num,
    by
      norm_num [sharding_round, seedLengths, ratioSeed, shardingLoop, maxDiffIndex,
        diffKeys, lastArgmax, lastArgmaxAux]
      try decide⟩,
   sharding_round_sum_and_nonneg 4 [(1:ℚ)/2, 1/2] (by norm_num) [2, 2]
     (by
      norm_num [sharding_round, seedLengths, ratioSeed, shardingLoop, maxDiffIndex,
        diffKeys, lastArgmax, lastArgmaxAux]
      try decide)⟩

/-- C5 counterexample: on `full_length = 1` with ratios `[1/2, 1/2]` both
buckets tie, and the source increments bucket 1 (the largest index, because
`max_by_key` returns the last maximal element), while the claim's
smallest-index tie-break would increment bucket 0. -/
theorem sharding_round_tie_break_counterexample :
    sharding_round 1 [(1:ℚ)/2, 1/2] = Except.ok [0, 1] ∧
    sharding_round_spec 1 [(1:ℚ)/2, 1/2] = Except.ok [1, 0] ∧
    ([0, 1] : List ℕ) ≠ [1, 0] := by
  refine ⟨?_, ?_, by decide⟩
  · norm_num [sharding_round, seedLengths, ratioSeed, shardingLoop, maxDiffIndex,
      diffKeys, lastArgmax, lastArgmaxAux]
    try decide
  · norm_num [sharding_round_spec, seedLengths, ratioSeed, shardingLoopSpec, firstArgmax,
      diffKeys, firstArgmaxAux]
    try decide

/-- C5 (amended): `sharding_round` seeds bucket `i` with
`floor(length * ratio_i)` (clamped at 0, like the Rust `as usize` cast) and
then, while the sum is below `length`, increments the bucket maximizing
`ratio_i - length_i / length`, choosing the LARGEST index when several buckets
attain the maximum: the chosen index carries a maximal key and every strictly
larger index carries a strictly smaller key. -/
theorem sharding_round_largest_index_tie_break :
    (∀ (full_length : ℕ) (sharding_ratios : List ℚ),
      sharding_round full_length sharding_ratios =
        if (seedLengths full_length sharding_ratios).sum ≤ full_length then
          shardingLoop sharding_ratios full_length
            (full_length - (seedLengths full_length sharding_ratios).sum)
            (seedLengths full_length sharding_ratios)
        else Except.error ()) ∧
    (∀ (sharding_ratios : List ℚ) (lengths : List ℕ) (full_length i : ℕ),
      maxDiffIndex sharding_ratios lengths full_length = some i →
        i < (diffKeys sharding_ratios lengths full_length).length ∧
        (∀ j, j < (diffKeys sharding_ratios lengths full_length).length →
          (diffKeys sharding_ratios lengths full_length).getD j 0 ≤
          (diffKeys sharding_ratios lengths full_length).getD i 0) ∧
        (∀ j, j < (diffKeys sharding_ratios lengths full_length).length → i < j →
          (diffKeys sharding_ratios lengths full_length).getD j 0 <
          (diffKeys sharding_ratios lengths full_length).getD i 0)) :=
  ⟨fun _ _ => rfl, fun _ _ _ i h => lastArgmax_char _ i h⟩

theorem sharding_round_largest_index_tie_break_witness :
    (maxDiffIndex [(1:ℚ)/2, 1/2] [0, 0] 1 = some 1) ∧
    (1 < (diffKeys [(1:ℚ)/2, 1/2] [0, 0] 1).length ∧
     (∀ j, j < (diffKeys [(1:ℚ)/2, 1/2] [0, 0] 1).length →
       (diffKeys [(1:ℚ)/2, 1/2] [0, 0] 1).getD j 0 ≤
       (diffKeys [(1:ℚ)/2, 1/2] [0, 0] 1).getD 1 0) ∧
     (∀ j, j < (diffKeys [(1:ℚ)/2, 1/2] [0, 0] 1).length → 1 < j →
       (diffKeys [(1:ℚ)/2, 1/2] [0, 0] 1).getD j 0 <
       (diffKeys [(1:ℚ)/2, 1/2] [0, 0] 1).getD 1 0)) := by
  have h : maxDiffIndex [(1:ℚ)/2, 1/2] [0, 0] 1 = some 1 := by
    norm_num [maxDiffIndex, diffKeys, lastArgmax, lastArgmaxAux]
  exact ⟨h, sharding_round_largest_index_tie_break.2 [(1:ℚ)/2, 1/2] [0, 0] 1 1 h⟩

/-- C6 counterexample: `sharding_round` performs no check that the ratios sum
to 1 — with ratios summing to 1/2 it returns a normal result — and it also
does not fail on `length = 0` with a non-trivial ratio vector. -/
theorem sharding_round_no_sum_check_counterexample :
    sharding_round 4 [(1:ℚ)/4, 1/4] = Except.ok [2, 2] ∧
    ([(1:ℚ)/4, 1/4].sum ≠ 1) ∧
    sharding_round 0 [(1:ℚ)/2, 1/2] = Except.ok [0, 0] := by
  refine ⟨?_, by norm_num, ?_⟩
  · norm_num [sharding_round, seedLengths, ratioSeed, shardingLoop, maxDiffIndex,
      diffKeys, lastArgmax, lastArgmaxAux]
    try decide
  · norm_num [sharding_round, seedLengths, ratioSeed, shardingLoop]
    try decide

/-- C6 (amended): `sharding_round` fails exactly when the floor-seeded bucket
lengths already sum to more than `length` (the `assert!`) or when the ratio
vector is empty while `length > 0` (the `unwrap` inside the loop); it never
validates that the ratios sum to 1, and `length = 0` always succeeds. -/
theorem sharding_round_failure_characterization (full_length : ℕ)
    (sharding_ratios : List ℚ) :
    (∃ out, sharding_round full_length sharding_ratios = Except.ok out) ↔
    ((seedLengths full_length sharding_ratios).sum ≤ full_length ∧
     (sharding_ratios = [] → full_length = 0)) := by
  constructor
  · rintro ⟨out, hout⟩
    simp only [sharding_round] at hout
    split at hout
    · next hcond =>
      refine ⟨hcond, ?_⟩
      intro hr
      subst hr
      by_contra hL
      rcases hgap : full_length - (seedLengths full_length []).sum with _ | g
      · simp only [seedLengths, List.map_nil, List.sum_nil] at hgap
        omega
      · rw [hgap] at hout
        simp only [shardingLoop] at hout
        have hnone : maxDiffIndex [] (seedLengths full_length []) full_length = none := by
          simp [maxDiffIndex, diffKeys, lastArgmax, lastArgmaxAux]
        rw [hnone] at hout
        cases hout
    · cases hout
  · rintro ⟨h1, h2⟩
    by_cases hr : sharding_ratios = []
    · subst hr
      rw [h2 rfl]
      refine ⟨[], ?_⟩
      norm_num [sharding_round, seedLengths, shardingLoop]
    · obtain ⟨out, hout⟩ := shardingLoop_ok_of_ne_nil sharding_ratios full_length hr
        (full_length - (seedLengths full_length sharding_ratios).sum)
        (seedLengths full_length sharding_ratios)
        (by simp [seedLengths])
      refine ⟨out, ?_⟩
      simp only [sharding_round]
      rw [if_pos h1]
      exact hout

/-! ### Claim C7: `Profiler::get_time` -/

theorem foldl_max_spec (xs : List ℚ) :
    ∀ x : ℚ, (x ≤ xs.foldl max x) ∧ (∀ y ∈ xs, y ≤ xs.foldl max x) ∧
      (xs.foldl max x = x ∨ xs.foldl max x ∈ xs) := by
  induction xs with
  | nil => intro x; exact ⟨le_refl x, by simp, Or.inl rfl⟩
  | cons z zs ih =>
    intro x
    obtain ⟨h1, h2, h3⟩ := ih (max x z)
    refine ⟨le_trans (le_max_left x z) h1, ?_, ?_⟩
    · intro y hy
      rcases List.mem_cons.mp hy with hy | hy
      · subst hy; exact le_trans (le_max_right x y) h1
      · exact h2 y hy
    · rcases h3 with h3 | h3
      · rcases max_choice x z with hc | hc
        · rw [List.foldl_cons, h3, hc]; exact Or.inl rfl
        · rw [List.foldl_cons, h3, hc]; exact Or.inr (List.mem_cons_self z zs)
      · exact Or.inr (List.mem_cons_of_mem z h3)

theorem listMax_mem_and_le (l : List ℚ) (m : ℚ) (h : listMax l = some m) :
    m ∈ l ∧ ∀ y ∈ l, y ≤ m := by
  cases l with
  | nil => cases h
  | cons x xs =>
    simp only [listMax, Option.some_inj] at h
    obtain ⟨h1, h2, h3⟩ := foldl_max_spec xs x
    subst h
    refine ⟨?_, ?_⟩
    · rcases h3 with h3 | h3
      · rw [h3]; exact List.mem_cons_self x xs
      · exact List.mem_cons_of_mem x h3
    · intro y hy
      rcases List.mem_cons.mp hy with hy | hy
      · subst hy; exact h1
      · exact h2 y hy

theorem listMax_isSome (l : List ℚ) (hne : l ≠ []) : ∃ m, listMax l = some m := by
  cases l with
  | nil => exact absurd rfl hne
  | cons x xs => exact ⟨xs.foldl max x, rfl⟩

theorem listMax_eq_sup' (l : List ℚ) (hne : l ≠ [])
    (h0 : (Finset.range l.length).Nonempty) :
    listMax l = some ((Finset.range l.length).sup' h0 (fun i => l.getD i 0)) := by
  obtain ⟨m, hm⟩ := listMax_isSome l hne
  obtain ⟨hmem, hle⟩ := listMax_mem_and_le l m hm
  rw [hm]
  congr 1
  apply le_antisymm
  · obtain ⟨⟨i, hi⟩, hgi⟩ := List.mem_iff_get.mp hmem
    have : m = l.getD i 0 := by rw [List.getD_eq_get l 0 hi, hgi]
    rw [this]
    exact Finset.le_sup' (fun i => l.getD i 0) (Finset.mem_range.mpr hi)
  · apply Finset.sup'_le
    intro i hi
    have hilt : i < l.length := Finset.mem_range.mp hi
    rw [List.getD_eq_get l 0 hilt]
    exact hle _ (l.get_mem i hilt)

/-- C7: for a ratio vector with one entry per device (and at least one
device), `get_time` returns `t_compute + t_comm`, where `t_compute` is the
straggler maximum over devices of `flops * r_i / device_flops_i` and `t_comm`
is the maximal ratio times the sum of the per-collective byte counts divided
by their bandwidths. -/
theorem get_time_formula (profiler : Profiler) (profile : Profile)
    (sharding_ratios : List ℚ)
    (hlen : sharding_ratios.length = profiler.cluster_info.device_flops.length)
    (hne : sharding_ratios ≠ []) :
    profiler.get_time profile sharding_ratios = some
      ((Finset.range sharding_ratios.length).sup'
          (Finset.nonempty_range_iff.mpr (by simpa using hne))
          (fun i => profile.flops * sharding_ratios.getD i 0 /
            profiler.cluster_info.device_flops.getD i 0) +
       ((Finset.range sharding_ratios.length).sup'
          (Finset.nonempty_range_iff.mpr (by simpa using hne))
          (fun i => sharding_ratios.getD i 0)) *
         (profile.all_gather / profiler.cluster_info.all_gather_bandwidth +
          profile.all_reduce / profiler.cluster_info.all_reduce_bandwidth +
          profile.all_to_all / profiler.cluster_info.all_to_all_bandwidth +
          profile.reduce_scatter / profiler.cluster_info.reduce_scatter_bandwidth)) := by
  have hzl : ((profiler.cluster_info.device_flops.zip sharding_ratios).map
      (fun dr => profile.flops * dr.2 / dr.1)).length = sharding_ratios.length := by
    simp [List.length_zip]
    omega
  have hzlne : ((profiler.cluster_info.device_flops.zip sharding_ratios).map
      (fun dr => profile.flops * dr.2 / dr.1)) ≠ [] := by
    intro hnil
    rw [hnil] at hzl
    exact hne (List.length_eq_zero.mp hzl.symm)
  have h0 : (Finset.range sharding_ratios.length).Nonempty :=
    Finset.nonempty_range_iff.mpr (by simpa using hne)
  have h0z : (Finset.range ((profiler.cluster_info.device_flops.zip
      sharding_ratios).map (fun dr => profile.flops * dr.2 / dr.1)).length).Nonempty := by
    rw [hzl]; exact h0
  have hc := listMax_eq_sup' _ hzlne h0z
  have hr := listMax_eq_sup' _ hne h0
  simp only [Profiler.get_time, hc, hr, Option.bind_eq_bind, Option.some_bind,
    Option.pure_def, Option.some_inj]
  have hcongr : ∀ i ∈ Finset.range sharding_ratios.length,
      ((profiler.cluster_info.device_flops.zip sharding_ratios).map
        (fun dr => profile.flops * dr.2 / dr.1)).getD i 0 =
      profile.flops * sharding_ratios.getD i 0 /
        profiler.cluster_info.device_flops.getD i 0 := by
    intro i hi
    have hilt : i < sharding_ratios.length := Finset.mem_range.mp hi
    have hiz : i < ((profiler.cluster_info.device_flops.zip sharding_ratios).map
        (fun dr => profile.flops * dr.2 / dr.1)).length := by omega
    have hizip : i < (profiler.cluster_info.device_flops.zip sharding_ratios).length := by
      simpa using hiz
    rw [List.getD_eq_get _ 0 hiz, List.get_map, List.get_zip,
      List.getD_eq_get _ 0 hilt, List.getD_eq_get _ 0 (by omega)]
  have hsup : (Finset.range ((profiler.cluster_info.device_flops.zip
        sharding_ratios).map (fun dr => profile.flops * dr.2 / dr.1)).length).sup' h0z
      (fun i => ((profiler.cluster_info.device_flops.zip sharding_ratios).map
        (fun dr => profile.flops * dr.2 / dr.1)).getD i 0) =
      (Finset.range sharding_ratios.length).sup' h0
        (fun i => profile.flops * sharding_ratios.getD i 0 /
          profiler.cluster_info.device_flops.getD i 0) := by
    apply Finset.sup'_congr
    · rw [hzl]
    · intro i hi
      exact hcongr i (by rw [← hzl]; exact hi)
  rw [hsup]
  ring

theorem get_time_formula_witness :
    (⟨⟨[(1:ℚ), 1], 1, 1, 1, 1⟩⟩ : Profiler).get_time ⟨2, 1, 1, 1, 1⟩ [(1:ℚ)/2, 1/2] =
    some
      ((Finset.range ([(1:ℚ)/2, 1/2].length)).sup' (by decide)
          (fun i => (2:ℚ) * [(1:ℚ)/2, 1/2].getD i 0 / [(1:ℚ), 1].getD i 0) +
       ((Finset.range ([(1:ℚ)/2, 1/2].length)).sup' (by decide)
          (fun i => [(1:ℚ)/2, 1/2].getD i 0)) *
         ((1:ℚ) / 1 + 1 / 1 + 1 / 1 + 1 / 1)) :=
  get_time_formula ⟨⟨[(1:ℚ), 1], 1, 1, 1, 1⟩⟩ ⟨2, 1, 1, 1, 1⟩ [(1:ℚ)/2, 1/2] rfl
    (by decide)

/-! ### Shared concrete examples -/

/-- A 4-device cluster with unit bandwidths, used for concrete runs. -/
def exampleProfiler : Profiler := ⟨⟨[1, 1, 1, 1], 1, 1, 1, 1⟩⟩

/-! ### Claim C1: `find_available_triples` -/

/-- A triple set with a single triple with no pre-conditions. -/
def emptyPreTS : IndexedHoareTripleSet :=
  ⟨[⟨[], [Property.Finished], [], "", (default, default)⟩]⟩

/-- C1 counterexample: a triple whose pre-condition set is empty satisfies
both availability conditions of the claim (every pre-condition holds
vacuously, and its post-condition `Finished` is missing), yet it is not in the
result of `find_available_triples`, because the candidate union only collects
triples indexed under some currently-held property. -/
theorem find_available_triples_counterexample :
    ((∀ p ∈ (emptyPreTS.triple 0).pre_conditions, p ∈ (Program.empty []).properties) ∧
     (∃ q ∈ (emptyPreTS.triple 0).post_conditions, q ∉ (Program.empty []).properties)) ∧
    0 ∉ (Program.empty []).find_available_triples emptyPreTS := by
  decide

/-- C1 (amended): for a valid triple id, membership in
`find_available_triples` holds iff the triple has a NON-EMPTY pre-condition
set, every pre-condition is among the program's properties, and at least one
post-condition is missing; triples with an empty pre-condition set are never
returned. -/
theorem find_available_triples_characterization (P : Program)
    (ts : IndexedHoareTripleSet) (tid : ℕ) (htid : tid < ts.triples.length) :
    tid ∈ P.find_available_triples ts ↔
      ((ts.triple tid).pre_conditions ≠ [] ∧
       (∀ p ∈ (ts.triple tid).pre_conditions, p ∈ P.properties) ∧
       ∃ q ∈ (ts.triple tid).post_conditions, q ∉ P.properties) := by
  simp only [Program.find_available_triples, findAvailProps, List.mem_filter,
    List.mem_range, decide_eq_true_eq]
  constructor
  · rintro ⟨⟨_, p, hpS, hppre⟩, hall, hsome⟩
    exact ⟨List.ne_nil_of_mem hppre, hall, hsome⟩
  · rintro ⟨hne, hall, hsome⟩
    rcases List.exists_mem_of_ne_nil _ hne with ⟨p, hp⟩
    exact ⟨⟨htid, p, hall p hp, hp⟩, hall, hsome⟩

/-- A triple set with a single triple with one pre-condition. -/
def onePreTS : IndexedHoareTripleSet :=
  ⟨[⟨[Property.identity 0], [Property.Finished], [], "", (default, default)⟩]⟩

theorem find_available_triples_characterization_witness :
    0 < onePreTS.triples.length ∧
    (0 ∈ (Program.empty [Property.identity 0]).find_available_triples onePreTS ↔
      ((onePreTS.triple 0).pre_conditions ≠ [] ∧
       (∀ p ∈ (onePreTS.triple 0).pre_conditions,
          p ∈ (Program.empty [Property.identity 0]).properties) ∧
       ∃ q ∈ (onePreTS.triple 0).post_conditions,
          q ∉ (Program.empty [Property.identity 0]).properties)) :=
  ⟨by decide,
   find_available_triples_characterization (Program.empty [Property.identity 0])
     onePreTS 0 (by decide)⟩

/-! ### Claim C3: the cost of `with_a_new_triple` -/

/-- A triple whose forward profile carries one unit of flops. -/
def flopsTripleTS : IndexedHoareTripleSet :=
  ⟨[⟨[], [], [], "", (⟨1, 0, 0, 0, 0⟩, ⟨0, 0, 0, 0, 0⟩)⟩]⟩

/-- C3 counterexample: `with_a_new_triple` charges the constant `epsilon`
(1e-6), not the estimated time of the triple's profile pair, which for this
triple under the hard-coded quarter ratios is 1/4 + 0. -/
theorem with_a_new_triple_cost_counterexample :
    ((Program.empty []).with_a_new_triple 0 flopsTripleTS exampleProfiler).cost
      = 1/1000000 ∧
    exampleProfiler.get_time (flopsTripleTS.triple 0).profile.1 quarterShardingRatios
      = some (1/4) ∧
    exampleProfiler.get_time (flopsTripleTS.triple 0).profile.2 quarterShardingRatios
      = some 0 ∧
    (1/1000000 : ℚ) ≠ (Program.empty []).cost + (1/4 + 0) := by
  refine ⟨?_, ?_, ?_, ?_⟩
  · norm_num [Program.with_a_new_triple, HoareTriple.get_cost, epsilon, Program.empty]
  · norm_num [Profiler.get_time, listMax, quarterShardingRatios, exampleProfiler,
      flopsTripleTS, IndexedHoareTripleSet.triple]
  · norm_num [Profiler.get_time, listMax, quarterShardingRatios, exampleProfiler,
      flopsTripleTS, IndexedHoareTripleSet.triple]
  · norm_num [Program.empty]

/-- C3 (amended): the program produced by `with_a_new_triple` has cost equal
to `P.cost` plus the constant `epsilon = 1e-6`, whatever the triple's profile:
`get_cost` ignores the profile entirely. -/
theorem with_a_new_triple_cost_epsilon (P : Program) (tid : ℕ)
    (ts : IndexedHoareTripleSet) (profiler : Profiler) :
    (P.with_a_new_triple tid ts profiler).cost = P.cost + 1/1000000 :=
  rfl

/-! ### Claim C10: negative post-conditions and the GC -/

/-- A triple whose single post-condition is also a negative post-condition,
and which appears as a pre-condition of no triple. -/
def negPostTS : IndexedHoareTripleSet :=
  ⟨[⟨[], [Property.AllowCommunication 0], [Property.AllowCommunication 0], "",
      (default, default)⟩]⟩

/-- C10 counterexample: a property that is both a post-condition and a
negative post-condition of the fired triple is first re-added (removals apply
only to the old set), but the irrelevant-property GC that
`with_a_new_triple` runs afterwards can remove it again, so it is absent from
the resulting property set. -/
theorem with_a_new_triple_negative_post_counterexample :
    Property.AllowCommunication 0 ∈ (negPostTS.triple 0).post_conditions ∧
    Property.AllowCommunication 0 ∈ (negPostTS.triple 0).negative_post_conditions ∧
    Property.AllowCommunication 0 ∉
      ((Program.empty []).with_a_new_triple 0 negPostTS exampleProfiler).properties := by
  decide

/-- C10 (amended): a property in the fired triple's post-conditions (in
particular one also among its negative post-conditions) is present in the
intermediate property set `(P.properties \ negative_post) ∪ post` — removals
apply only to the old set and post-conditions are added afterwards — and the
final property set is that intermediate set filtered by the irrelevance GC,
which may drop the property again. -/
theorem with_a_new_triple_post_before_gc (P : Program) (tid : ℕ)
    (ts : IndexedHoareTripleSet) (profiler : Profiler) (p : Property)
    (hp : p ∈ (ts.triple tid).post_conditions) :
    p ∈ ((P.properties.filter
          (fun q => q ∉ (ts.triple tid).negative_post_conditions)) ∪
        (ts.triple tid).post_conditions.toFinset) ∧
    (P.with_a_new_triple tid ts profiler).properties =
      remove_irrelavent_properties
        ((P.properties.filter
            (fun q => q ∉ (ts.triple tid).negative_post_conditions)) ∪
          (ts.triple tid).post_conditions.toFinset) ts :=
  ⟨Finset.mem_union_right _ (List.mem_toFinset.mpr hp), rfl⟩

theorem with_a_new_triple_post_before_gc_witness :
    Property.AllowCommunication 0 ∈
      (((Program.empty []).properties.filter
          (fun q => q ∉ (negPostTS.triple 0).negative_post_conditions)) ∪
        (negPostTS.triple 0).post_conditions.toFinset) ∧
    ((Program.empty []).with_a_new_triple 0 negPostTS exampleProfiler).properties =
      remove_irrelavent_properties
        (((Program.empty []).properties.filter
            (fun q => q ∉ (negPostTS.triple 0).negative_post_conditions)) ∪
          (negPostTS.triple 0).post_conditions.toFinset) negPostTS :=
  with_a_new_triple_post_before_gc (Program.empty []) 0 negPostTS exampleProfiler
    (Property.AllowCommunication 0) (by decide)

/-! ### Claim C8: conservativeness of `remove_irrelavent_properties` -/

/-- Property sets reachable from `S` by firing triples of the set: a firing
applies the raw rewrite `(S \ negative_post) ∪ post` of any triple, and the
irrelevance GC may be applied at any point (the code's `with_a_new_triple`
step is a firing followed by one GC).  No availability condition is imposed,
which only makes reachability (and hence the conservativeness theorem)
larger. -/
inductive Reach (ts : IndexedHoareTripleSet) : Finset Property → Finset Property → Prop where
  | refl (S : Finset Property) : Reach ts S S
  | fire (S S' : Finset Property) (tid : ℕ) (h : Reach ts S S')
      (htid : tid < ts.triples.length) :
      Reach ts S ((S'.filter
          (fun p => p ∉ (ts.triple tid).negative_post_conditions)) ∪
        (ts.triple tid).post_conditions.toFinset)
  | gc (S S' : Finset Property) (h : Reach ts S S') :
      Reach ts S (remove_irrelavent_properties S' ts)

theorem remove_irrelavent_properties_subset (S : Finset Property)
    (ts : IndexedHoareTripleSet) : remove_irrelavent_properties S ts ⊆ S :=
  Finset.filter_subset _ _

theorem get_triples_with_post_condition_nil_iff (ts : IndexedHoareTripleSet)
    (q : Property) :
    ts.get_triples_with_post_condition q = [] ↔
      ∀ tid, tid < ts.triples.length → q ∉ (ts.triple tid).post_conditions := by
  simp [IndexedHoareTripleSet.get_triples_with_post_condition,
    List.filter_eq_nil_iff, List.mem_range]

theorem reach_not_mem_of_no_post (ts : IndexedHoareTripleSet) (q : Property)
    (hq : ∀ tid, tid < ts.triples.length → q ∉ (ts.triple tid).post_conditions) :
    ∀ S S', Reach ts S S' → q ∉ S → q ∉ S' := by
  intro S S' hreach
  induction hreach with
  | refl => exact fun h => h
  | fire S1 tid h htid ih =>
    intro hqS hmem
    rcases Finset.mem_union.mp hmem with hmem | hmem
    · exact ih hqS (Finset.mem_of_mem_filter q hmem)
    · exact hq tid htid (List.mem_toFinset.mp hmem)
  | gc S1 h ih =>
    intro hqS hmem
    exact ih hqS (remove_irrelavent_properties_subset _ _ hmem)

theorem irrelevantIn_of_removed (ts : IndexedHoareTripleSet) (S : Finset Property)
    (p : Property) (hpS : p ∈ S) (hrem : p ∉ remove_irrelavent_properties S ts) :
    irrelevantIn ts S p := by
  by_contra hirr
  exact hrem (Finset.mem_filter.mpr ⟨hpS, hirr⟩)

theorem mem_get_triples_with_pre_condition (ts : IndexedHoareTripleSet)
    (p : Property) (tid : ℕ) (htid : tid < ts.triples.length)
    (hp : p ∈ (ts.triple tid).pre_conditions) :
    tid ∈ ts.get_triples_with_pre_condition p := by
  simp [IndexedHoareTripleSet.get_triples_with_pre_condition, List.mem_filter,
    List.mem_range, htid, hp]

/-- C8: `remove_irrelavent_properties` never removes `Finished`, and every
property it removes is such that no triple having it among its pre-conditions
can fire — all its pre-conditions hold — from the current property set or any
property set reachable from it (starting from either the pre-removal or the
post-removal set): such a triple has a pre-condition that is absent and is a
post-condition of no triple, hence absent forever. -/
theorem remove_irrelavent_properties_conservative (ts : IndexedHoareTripleSet)
    (S : Finset Property) :
    (Property.Finished ∈ S →
      Property.Finished ∈ remove_irrelavent_properties S ts) ∧
    (∀ p ∈ S, p ∉ remove_irrelavent_properties S ts →
      ∀ tid, tid < ts.triples.length → p ∈ (ts.triple tid).pre_conditions →
        ∀ S', (Reach ts S S' ∨ Reach ts (remove_irrelavent_properties S ts) S') →
          ¬ ∀ q ∈ (ts.triple tid).pre_conditions, q ∈ S') := by
  constructor
  · intro hfin
    refine Finset.mem_filter.mpr ⟨hfin, ?_⟩
    intro hirr
    exact hirr.1 rfl
  · intro p hpS hrem tid htid hppre S' hreach hall
    have hirr := irrelevantIn_of_removed ts S p hpS hrem
    obtain ⟨q, hqpre, hqS, hqpost⟩ :=
      hirr.2 tid (mem_get_triples_with_pre_condition ts p tid htid hppre)
    have hqnopost := (get_triples_with_post_condition_nil_iff ts q).mp hqpost
    have hqS' : q ∉ S' := by
      rcases hreach with hreach | hreach
      · exact reach_not_mem_of_no_post ts q hqnopost S S' hreach hqS
      · exact reach_not_mem_of_no_post ts q hqnopost _ S' hreach
          (fun hmem => hqS (remove_irrelavent_properties_subset S ts hmem))
    exact hqS' (hall q hqpre)

/-- A triple set in which property `identity 0` heads a triple whose other
pre-condition `identity 1` is produced by no triple, so the GC removes
`identity 0`. -/
def deadPreTS : IndexedHoareTripleSet :=
  ⟨[⟨[Property.identity 0, Property.identity 1], [], [], "", (default, default)⟩]⟩

theorem remove_irrelavent_properties_conservative_witness :
    (Property.identity 0 ∈ ({Property.identity 0} : Finset Property)) ∧
    (Property.identity 0 ∉
      remove_irrelavent_properties {Property.identity 0} deadPreTS) ∧
    ¬ ∀ q ∈ (deadPreTS.triple 0).pre_conditions,
        q ∈ remove_irrelavent_properties {Property.identity 0} deadPreTS :=
  ⟨by decide, by decide,
   (remove_irrelavent_properties_conservative deadPreTS {Property.identity 0}).2
     (Property.identity 0) (by decide) (by decide) 0 (by decide) (by decide)
     (remove_irrelavent_properties {Property.identity 0} deadPreTS)
     (Or.inr (Reach.refl _))⟩

/-! ### Claims C2 and C9: the search loop -/

/-- `popMin` returns `none` exactly on the empty heap. -/
theorem popMin_eq_none_iff (heap : List Program) : popMin heap = none ↔ heap = [] := by
  cases heap with
  | nil => simp [popMin]
  | cons P rest =>
    simp only [popMin]
    constructor
    · intro h
      rcases hrest : popMin rest with _ | pr
      · rw [hrest] at h; cases h
      · rw [hrest] at h
        rcases pr with ⟨Q, rest'⟩
        dsimp only at h
        by_cases hlt : Q.total_cost < P.total_cost
        · rw [if_pos hlt] at h; cases h
        · rw [if_neg hlt] at h; cases h
    · intro h; cases h

/-- Popping permutes the heap into the popped element and the remainder. -/
theorem popMin_perm (heap : List Program) :
    ∀ (P : Program) (rest : List Program), popMin heap = some (P, rest) →
      heap.Perm (P :: rest) := by
  induction heap with
  | nil => intro P rest h; cases h
  | cons Q rest0 ih =>
    intro P rest h
    simp only [popMin] at h
    rcases hrest : popMin rest0 with _ | pr
    · rw [hrest] at h
      have : rest0 = [] := (popMin_eq_none_iff rest0).mp hrest
      subst this
      cases h
      exact List.Perm.refl _
    · rw [hrest] at h
      rcases pr with ⟨Q', rest'⟩
      dsimp only at h
      have hperm' := ih Q' rest' hrest
      by_cases hlt : Q'.total_cost < Q.total_cost
      · rw [if_pos hlt] at h
        cases h
        exact (hperm'.cons Q).trans (List.Perm.swap P Q rest')
      · rw [if_neg hlt] at h
        cases h
        exact List.Perm.refl _

theorem popMin_mem (heap : List Program) (P : Program) (rest : List Program)
    (h : popMin heap = some (P, rest)) : P ∈ heap :=
  (popMin_perm heap P rest h).mem_iff.mpr (List.mem_cons_self P rest)

theorem popMin_mem_rest (heap : List Program) (P : Program) (rest : List Program)
    (h : popMin heap = some (P, rest)) : ∀ Q ∈ rest, Q ∈ heap := fun Q hQ =>
  (popMin_perm heap P rest h).mem_iff.mpr (List.mem_cons_of_mem P hQ)

theorem popMin_split (heap : List Program) (P : Program) (rest : List Program)
    (h : popMin heap = some (P, rest)) : ∀ Q ∈ heap, Q = P ∨ Q ∈ rest := fun Q hQ =>
  List.mem_cons.mp ((popMin_perm heap P rest h).mem_iff.mp hQ)

/-- The programs obtained by firing a sequence of triples in order. -/
def progAfter (ts : IndexedHoareTripleSet) (profiler : Profiler) :
    Program → List ℕ → Program
  | P, [] => P
  | P, tid :: rest => progAfter ts profiler (P.with_a_new_triple tid ts profiler) rest

/-- A triple sequence is firable from a program when each triple in turn is
among the `find_available_triples` of the program built so far. -/
def Firable (ts : IndexedHoareTripleSet) (profiler : Profiler) :
    Program → List ℕ → Prop
  | _, [] => True
  | P, tid :: rest =>
    tid ∈ P.find_available_triples ts ∧
    Firable ts profiler (P.with_a_new_triple tid ts profiler) rest

theorem epsilon_nonneg : (0:ℚ) ≤ epsilon := by norm_num [epsilon]

theorem with_a_new_triple_cost_le (P : Program) (tid : ℕ)
    (ts : IndexedHoareTripleSet) (profiler : Profiler) :
    P.cost ≤ (P.with_a_new_triple tid ts profiler).cost := by
  rw [with_a_new_triple_cost]
  exact le_add_of_nonneg_right epsilon_nonneg

theorem progAfter_cost_mono (ts : IndexedHoareTripleSet) (profiler : Profiler) :
    ∀ (σ : List ℕ) (P : Program), P.cost ≤ (progAfter ts profiler P σ).cost := by
  intro σ
  induction σ with
  | nil => intro P; exact le_refl _
  | cons tid rest ih =>
    intro P
    calc P.cost ≤ (P.with_a_new_triple tid ts profiler).cost :=
          with_a_new_triple_cost_le P tid ts profiler
      _ ≤ _ := ih _

/-- Pointwise refinement of caches: every key keeps an entry that is at most
as large. -/
def CacheLE (c₁ c₂ : Cache) : Prop :=
  ∀ S v, c₁ S = some v → ∃ v', c₂ S = some v' ∧ v' ≤ v

theorem cacheLE_refl (c : Cache) : CacheLE c c := fun S v h => ⟨v, h, le_refl v⟩

/-- Refinement of the best program: it only gets cheaper. -/
def BestLE (b₁ b₂ : Option Program) : Prop :=
  ∀ b, b₁ = some b → ∃ b', b₂ = some b' ∧ b'.cost ≤ b.cost

theorem bestLE_refl (b : Option Program) : BestLE b b := fun b' h => ⟨b', h, le_refl _⟩

/-- The search invariant: every cache entry is justified either by a heap
program realizing it (A), or by the best program strictly beating it (C), or
by having been fully expanded (B): a complete cached set is covered by the
best program, and an incomplete one has all its successors cached within one
step cost. -/
def InvHolds (ts : IndexedHoareTripleSet) (heap : List Program) (cache : Cache)
    (best : Option Program) : Prop :=
  ∀ S c, cache S = some c →
    (∃ Q ∈ heap, Q.properties = S ∧ Q.cost = c) ∨
    (∃ b, best = some b ∧ b.cost < c) ∨
    ((Property.Finished ∈ S → ∃ b, best = some b ∧ b.cost ≤ c) ∧
     (Property.Finished ∉ S → ∀ tid ∈ findAvailProps ts S,
        ∃ c', cache (stepProps ts S tid) = some c' ∧ c' ≤ c + epsilon))

/-- Every heap program's property set is cached at a cost at most its own. -/
def HeapCached (heap : List Program) (cache : Cache) : Prop :=
  ∀ Q ∈ heap, ∃ c, cache Q.properties = some c ∧ c ≤ Q.cost

theorem invC_mono {best best' : Option Program} {c : ℚ}
    (h : ∃ b, best = some b ∧ b.cost < c) (hb : BestLE best best') :
    ∃ b, best' = some b ∧ b.cost < c := by
  obtain ⟨b, hbb, hlt⟩ := h
  obtain ⟨b', hb', hle⟩ := hb b hbb
  exact ⟨b', hb', lt_of_le_of_lt hle hlt⟩

theorem invB_mono (ts : IndexedHoareTripleSet) {cache cache' : Cache}
    {best best' : Option Program} {S : Finset Property} {c : ℚ}
    (h : (Property.Finished ∈ S → ∃ b, best = some b ∧ b.cost ≤ c) ∧
      (Property.Finished ∉ S → ∀ tid ∈ findAvailProps ts S,
        ∃ c', cache (stepProps ts S tid) = some c' ∧ c' ≤ c + epsilon))
    (hc : CacheLE cache cache') (hb : BestLE best best') :
    (Property.Finished ∈ S → ∃ b, best' = some b ∧ b.cost ≤ c) ∧
    (Property.Finished ∉ S → ∀ tid ∈ findAvailProps ts S,
      ∃ c', cache' (stepProps ts S tid) = some c' ∧ c' ≤ c + epsilon) := by
  constructor
  · intro hfin
    obtain ⟨b, hbb, hle⟩ := h.1 hfin
    obtain ⟨b', hb', hle'⟩ := hb b hbb
    exact ⟨b', hb', le_trans hle' hle⟩
  · intro hfin tid htid
    obtain ⟨c', hc', hle'⟩ := h.2 hfin tid htid
    obtain ⟨c'', hc'', hle''⟩ := hc _ c' hc'
    exact ⟨c'', hc'', le_trans hle'' hle'⟩

theorem cacheLE_trans {a b c : Cache} (h₁ : CacheLE a b) (h₂ : CacheLE b c) :
    CacheLE a c := by
  intro S v hv
  obtain ⟨v', hv', hle'⟩ := h₁ S v hv
  obtain ⟨v'', hv'', hle''⟩ := h₂ S v' hv'
  exact ⟨v'', hv'', le_trans hle'' hle'⟩

theorem cache_insert_self (cache : Cache) (k : Finset Property) (v : ℚ) :
    (cache.insert k v) k = some v := by
  simp [Cache.insert]

theorem cache_insert_other (cache : Cache) (k S : Finset Property) (v : ℚ)
    (h : S ≠ k) : (cache.insert k v) S = cache S := by
  simp [Cache.insert, h]

theorem cacheLE_insert (cache : Cache) (k : Finset Property) (v : ℚ)
    (h : ∀ c, cache k = some c → v ≤ c) : CacheLE cache (cache.insert k v) := by
  intro S w hw
  by_cases hS : S = k
  · subst hS
    exact ⟨v, cache_insert_self cache S v, h w hw⟩
  · exact ⟨w, by rw [cache_insert_other cache k S v hS]; exact hw, le_refl w⟩

theorem expandFold_cacheLE (ts : IndexedHoareTripleSet) (profiler : Profiler)
    (P : Program) :
    ∀ (L : List ℕ) (heap : List Program) (cache : Cache),
    CacheLE cache (expandFold ts profiler P L heap cache).2 := by
  intro L
  induction L with
  | nil => intro heap cache; exact cacheLE_refl cache
  | cons tid L ih =>
    intro heap cache
    simp only [expandFold]
    rcases hc : cache (P.with_a_new_triple tid ts profiler).properties with _ | c
    · dsimp only
      refine cacheLE_trans ?_ (ih _ _)
      apply cacheLE_insert
      intro c hc'
      rw [hc] at hc'
      cases hc'
    · dsimp only
      by_cases hle : c ≤ (P.with_a_new_triple tid ts profiler).cost
      · rw [if_pos hle]
        exact ih _ _
      · rw [if_neg hle]
        refine cacheLE_trans ?_ (ih _ _)
        apply cacheLE_insert
        intro c' hc'
        rw [hc] at hc'
        cases hc'
        exact le_of_not_le hle

theorem expandFold_heap_mono (ts : IndexedHoareTripleSet) (profiler : Profiler)
    (P : Program) :
    ∀ (L : List ℕ) (heap : List Program) (cache : Cache) (Q : Program),
    Q ∈ heap → Q ∈ (expandFold ts profiler P L heap cache).1 := by
  intro L
  induction L with
  | nil => intro heap cache Q hQ; exact hQ
  | cons tid L ih =>
    intro heap cache Q hQ
    simp only [expandFold]
    rcases hc : cache (P.with_a_new_triple tid ts profiler).properties with _ | c
    · dsimp only
      exact ih _ _ Q (List.mem_cons_of_mem _ hQ)
    · dsimp only
      by_cases hle : c ≤ (P.with_a_new_triple tid ts profiler).cost
      · rw [if_pos hle]
        exact ih _ _ Q hQ
      · rw [if_neg hle]
        exact ih _ _ Q (List.mem_cons_of_mem _ hQ)

theorem expandFold_heapCached (ts : IndexedHoareTripleSet) (profiler : Profiler)
    (P : Program) :
    ∀ (L : List ℕ) (heap : List Program) (cache : Cache),
    HeapCached heap cache →
    HeapCached (expandFold ts profiler P L heap cache).1
      (expandFold ts profiler P L heap cache).2 := by
  intro L
  induction L with
  | nil => intro heap cache h; exact h
  | cons tid L ih =>
    intro heap cache h
    simp only [expandFold]
    rcases hc : cache (P.with_a_new_triple tid ts profiler).properties with _ | c
    · dsimp only
      apply ih
      intro Q hQ
      rcases List.mem_cons.mp hQ with hQ | hQ
      · subst hQ
        exact ⟨(P.with_a_new_triple tid ts profiler).cost,
          cache_insert_self cache _ _, le_refl _⟩
      · obtain ⟨cq, hcq, hcqle⟩ := h Q hQ
        by_cases hS : Q.properties = (P.with_a_new_triple tid ts profiler).properties
        · rw [hS, cache_insert_self]
          refine ⟨(P.with_a_new_triple tid ts profiler).cost, rfl, ?_⟩
          rw [hS] at hcq
          rw [hc] at hcq
          cases hcq
        · rw [cache_insert_other cache _ _ _ hS]
          exact ⟨cq, hcq, hcqle⟩
    · dsimp only
      by_cases hle : c ≤ (P.with_a_new_triple tid ts profiler).cost
      · rw [if_pos hle]
        exact ih _ _ h
      · rw [if_neg hle]
        apply ih
        intro Q hQ
        rcases List.mem_cons.mp hQ with hQ | hQ
        · subst hQ
          exact ⟨(P.with_a_new_triple tid ts profiler).cost,
            cache_insert_self cache _ _, le_refl _⟩
        · obtain ⟨cq, hcq, hcqle⟩ := h Q hQ
          by_cases hS : Q.properties = (P.with_a_new_triple tid ts profiler).properties
          · rw [hS, cache_insert_self]
            refine ⟨(P.with_a_new_triple tid ts profiler).cost, rfl, ?_⟩
            rw [hS, hc] at hcq
            cases hcq
            exact le_trans (le_of_not_le hle) hcqle
          · rw [cache_insert_other cache _ _ _ hS]
            exact ⟨cq, hcq, hcqle⟩

theorem expandFold_processed (ts : IndexedHoareTripleSet) (profiler : Profiler)
    (P : Program) :
    ∀ (L : List ℕ) (heap : List Program) (cache : Cache), ∀ tid ∈ L,
    ∃ c', (expandFold ts profiler P L heap cache).2
        ((P.with_a_new_triple tid ts profiler).properties) = some c' ∧
      c' ≤ (P.with_a_new_triple tid ts profiler).cost := by
  intro L
  induction L with
  | nil => intro heap cache tid htid; simp at htid
  | cons tid0 L ih =>
    intro heap cache tid htid
    simp only [expandFold]
    rcases List.mem_cons.mp htid with heq | htid'
    · subst heq
      rcases hc : cache (P.with_a_new_triple tid ts profiler).properties with _ | c
      · dsimp only
        obtain ⟨c', hc', hle'⟩ := expandFold_cacheLE ts profiler P L _ _
          (P.with_a_new_triple tid ts profiler).properties
          (P.with_a_new_triple tid ts profiler).cost (cache_insert_self cache _ _)
        exact ⟨c', hc', hle'⟩
      · dsimp only
        by_cases hle : c ≤ (P.with_a_new_triple tid ts profiler).cost
        · rw [if_pos hle]
          obtain ⟨c', hc', hle'⟩ := expandFold_cacheLE ts profiler P L heap cache
            (P.with_a_new_triple tid ts profiler).properties c hc
          exact ⟨c', hc', le_trans hle' hle⟩
        · rw [if_neg hle]
          obtain ⟨c', hc', hle'⟩ := expandFold_cacheLE ts profiler P L _ _
            (P.with_a_new_triple tid ts profiler).properties
            (P.with_a_new_triple tid ts profiler).cost (cache_insert_self cache _ _)
          exact ⟨c', hc', hle'⟩
    · rcases hc : cache (P.with_a_new_triple tid0 ts profiler).properties with _ | c
      · dsimp only
        exact ih _ _ tid htid'
      · dsimp only
        by_cases hle : c ≤ (P.with_a_new_triple tid0 ts profiler).cost
        · rw [if_pos hle]
          exact ih _ _ tid htid'
        · rw [if_neg hle]
          exact ih _ _ tid htid'

theorem expandFold_entry_src (ts : IndexedHoareTripleSet) (profiler : Profiler)
    (P : Program) :
    ∀ (L : List ℕ) (heap : List Program) (cache : Cache) (S : Finset Property) (c : ℚ),
    (expandFold ts profiler P L heap cache).2 S = some c →
    (∃ Q ∈ (expandFold ts profiler P L heap cache).1,
      Q.properties = S ∧ Q.cost = c) ∨ cache S = some c := by
  intro L
  induction L with
  | nil => intro heap cache S c h; exact Or.inr h
  | cons tid L ih =>
    intro heap cache S c h
    simp only [expandFold] at h ⊢
    rcases hc : cache (P.with_a_new_triple tid ts profiler).properties with _ | c0
    · rw [hc] at h
      dsimp only at h ⊢
      rcases ih _ _ S c h with hA | hold
      · exact Or.inl hA
      · by_cases hS : S = (P.with_a_new_triple tid ts profiler).properties
        · subst hS
          rw [cache_insert_self] at hold
          cases hold
          refine Or.inl ⟨P.with_a_new_triple tid ts profiler, ?_, rfl, rfl⟩
          exact expandFold_heap_mono ts profiler P L _ _ _ (List.mem_cons_self _ _)
        · rw [cache_insert_other cache _ _ _ hS] at hold
          exact Or.inr hold
    · rw [hc] at h
      dsimp only at h ⊢
      by_cases hle : c0 ≤ (P.with_a_new_triple tid ts profiler).cost
      · rw [if_pos hle] at h ⊢
        exact ih _ _ S c h
      · rw [if_neg hle] at h ⊢
        rcases ih _ _ S c h with hA | hold
        · exact Or.inl hA
        · by_cases hS : S = (P.with_a_new_triple tid ts profiler).properties
          · subst hS
            rw [cache_insert_self] at hold
            cases hold
            refine Or.inl ⟨P.with_a_new_triple tid ts profiler, ?_, rfl, rfl⟩
            exact expandFold_heap_mono ts profiler P L _ _ _ (List.mem_cons_self _ _)
          · rw [cache_insert_other cache _ _ _ hS] at hold
            exact Or.inr hold

theorem bestSkip_eq_true_iff (best : Option Program) (P : Program) :
    bestSkip best P = true ↔ ∃ b, best = some b ∧ b.cost < P.cost := by
  cases best with
  | none => simp [bestSkip]
  | some b => simp [bestSkip]

theorem bestSkip_eq_false_iff (best : Option Program) (P : Program) :
    bestSkip best P = false ↔ ∀ b, best = some b → P.cost ≤ b.cost := by
  cases best with
  | none => simp [bestSkip]
  | some b => simp [bestSkip, not_lt]

theorem cacheSkip_eq_true_iff (cache : Cache) (P : Program) :
    cacheSkip cache P = true ↔ ∃ c, cache P.properties = some c ∧ c < P.cost := by
  unfold cacheSkip
  rcases hc : cache P.properties with _ | c
  · simp
  · simp

theorem cacheSkip_eq_false_le (cache : Cache) (P : Program) (c : ℚ)
    (h : cache P.properties = some c) (hf : cacheSkip cache P = false) :
    P.cost ≤ c := by
  unfold cacheSkip at hf
  rw [h] at hf
  simpa [not_lt] using hf

theorem updateBest_bestLE (best : Option Program) (P : Program) :
    BestLE best (updateBest best P) := by
  intro b hb
  cases best with
  | none => cases hb
  | some b0 =>
    cases hb
    unfold updateBest
    dsimp only
    by_cases hlt : P.cost < b.cost
    · rw [if_pos hlt]
      exact ⟨P, rfl, le_of_lt hlt⟩
    · rw [if_neg hlt]
      exact ⟨b, rfl, le_refl _⟩

theorem updateBest_le_of (best : Option Program) (P : Program)
    (h : ∀ b, best = some b → P.cost ≤ b.cost) :
    ∃ b', updateBest best P = some b' ∧ b'.cost ≤ P.cost := by
  cases best with
  | none => exact ⟨P, rfl, le_refl _⟩
  | some b0 =>
    unfold updateBest
    dsimp only
    by_cases hlt : P.cost < b0.cost
    · rw [if_pos hlt]
      exact ⟨P, rfl, le_refl _⟩
    · rw [if_neg hlt]
      exact ⟨b0, rfl, le_antisymm (not_lt.mp hlt) (h b0 rfl) ▸ le_refl _⟩

theorem final_extract (ts : IndexedHoareTripleSet) (profiler : Profiler)
    (cache : Cache) (best : Option Program)
    (hInv : InvHolds ts [] cache best) :
    ∀ (σ : List ℕ) (P₀ : Program),
      (∃ c₀, cache P₀.properties = some c₀ ∧ c₀ ≤ P₀.cost) →
      Firable ts profiler P₀ σ →
      Property.Finished ∈ (progAfter ts profiler P₀ σ).properties →
      ∃ b, best = some b ∧ b.cost ≤ (progAfter ts profiler P₀ σ).cost := by
  intro σ
  induction σ with
  | nil =>
    rintro P₀ ⟨c₀, hc₀, hc₀le⟩ _ hfin
    simp only [progAfter] at hfin ⊢
    rcases hInv _ _ hc₀ with ⟨Q, hQ, _⟩ | hC | hB
    · exact absurd hQ (List.not_mem_nil Q)
    · obtain ⟨b, hb, hlt⟩ := hC
      exact ⟨b, hb, le_trans (le_of_lt hlt) hc₀le⟩
    · obtain ⟨b, hb, hble⟩ := hB.1 hfin
      exact ⟨b, hb, le_trans hble hc₀le⟩
  | cons tid σ ih =>
    rintro P₀ ⟨c₀, hc₀, hc₀le⟩ hfir hfin
    obtain ⟨htid, hfir'⟩ := hfir
    simp only [progAfter] at hfin ⊢
    have hmono : P₀.cost ≤
        (progAfter ts profiler (P₀.with_a_new_triple tid ts profiler) σ).cost :=
      le_trans (with_a_new_triple_cost_le P₀ tid ts profiler)
        (progAfter_cost_mono ts profiler σ _)
    rcases hInv _ _ hc₀ with ⟨Q, hQ, _⟩ | hC | hB
    · exact absurd hQ (List.not_mem_nil Q)
    · obtain ⟨b, hb, hlt⟩ := hC
      exact ⟨b, hb, le_trans (le_of_lt hlt) (le_trans hc₀le hmono)⟩
    · by_cases hf0 : Property.Finished ∈ P₀.properties
      · obtain ⟨b, hb, hble⟩ := hB.1 hf0
        exact ⟨b, hb, le_trans hble (le_trans hc₀le hmono)⟩
      · obtain ⟨c', hc', hc'le⟩ := hB.2 hf0 tid htid
        apply ih (P₀.with_a_new_triple tid ts profiler) ?_ hfir' hfin
        refine ⟨c', hc', ?_⟩
        rw [with_a_new_triple_cost]
        calc c' ≤ c₀ + epsilon := hc'le
          _ ≤ P₀.cost + epsilon := by linarith

theorem aStarLoop_opt (ts : IndexedHoareTripleSet) (profiler : Profiler) :
    ∀ (fuel : ℕ) (heap : List Program) (cache : Cache) (best : Option Program)
      (bfin : Program),
    InvHolds ts heap cache best → HeapCached heap cache →
    aStarLoop ts profiler fuel heap cache best = some bfin →
    ∀ (P₀ : Program) (σ : List ℕ),
      (∃ c₀, cache P₀.properties = some c₀ ∧ c₀ ≤ P₀.cost) →
      Firable ts profiler P₀ σ →
      Property.Finished ∈ (progAfter ts profiler P₀ σ).properties →
      bfin.cost ≤ (progAfter ts profiler P₀ σ).cost := by
  intro fuel
  induction fuel with
  | zero =>
    intro heap cache best bfin hInv _ hrun P₀ σ hc₀ hfir hfin
    simp only [aStarLoop] at hrun
    rcases hpop : popMin heap with _ | pr
    · rw [hpop] at hrun
      dsimp only at hrun
      have hheap : heap = [] := (popMin_eq_none_iff heap).mp hpop
      subst hheap
      obtain ⟨b, hb, hble⟩ := final_extract ts profiler cache best hInv σ P₀ hc₀ hfir hfin
      rw [hrun] at hb
      cases hb
      exact hble
    · rw [hpop] at hrun
      dsimp only at hrun
      cases hrun
  | succ fuel ih =>
    intro heap cache best bfin hInv hHC hrun P₀ σ hc₀ hfir hfin
    simp only [aStarLoop] at hrun
    rcases hpop : popMin heap with _ | ⟨P, rest⟩
    · rw [hpop] at hrun
      dsimp only at hrun
      have hheap : heap = [] := (popMin_eq_none_iff heap).mp hpop
      subst hheap
      obtain ⟨b, hb, hble⟩ := final_extract ts profiler cache best hInv σ P₀ hc₀ hfir hfin
      rw [hrun] at hb
      cases hb
      exact hble
    · rw [hpop] at hrun
      dsimp only at hrun
      have hsplit := popMin_split heap P rest hpop
      have hmemP := popMin_mem heap P rest hpop
      have hrestmem := popMin_mem_rest heap P rest hpop
      have hHCrest : HeapCached rest cache := fun Q hQ => hHC Q (hrestmem Q hQ)
      rcases hbs : bestSkip best P with _ | _
      · -- bestSkip is false
        rw [hbs] at hrun
        rw [if_neg (by decide : ¬ (false = true))] at hrun
        rcases hcs : cacheSkip cache P with _ | _
        · -- cacheSkip is false
          rw [hcs] at hrun
          rw [if_neg (by decide : ¬ (false = true))] at hrun
          -- the popped program's property set is cached at exactly its cost
          obtain ⟨cP, hcP, hcPle⟩ := hHC P hmemP
          have hcPeq : cP = P.cost :=
            le_antisymm hcPle (cacheSkip_eq_false_le cache P cP hcP hcs)
          have hcacheP : cache P.properties = some P.cost := by
            rw [← hcPeq]; exact hcP
          by_cases hcmp : P.is_complete
          · -- the popped program is complete: update the best program
            rw [if_pos hcmp] at hrun
            have hbestle := (bestSkip_eq_false_iff best P).mp hbs
            have hBLE : BestLE best (updateBest best P) := updateBest_bestLE best P
            have hInv' : InvHolds ts rest cache (updateBest best P) := by
              intro S c hSc
              rcases hInv S c hSc with ⟨Q, hQ, hQS, hQc⟩ | hC | hB
              · rcases hsplit Q hQ with hQP | hQrest
                · subst hQP
                  refine Or.inr (Or.inr ⟨?_, ?_⟩)
                  · intro _
                    obtain ⟨b', hb', hb'le⟩ := updateBest_le_of best Q hbestle
                    refine ⟨b', hb', ?_⟩
                    rw [← hQc]
                    exact hb'le
                  · intro hnf
                    exact absurd (hQS ▸ hcmp) hnf
                · exact Or.inl ⟨Q, hQrest, hQS, hQc⟩
              · exact Or.inr (Or.inl (invC_mono hC hBLE))
              · exact Or.inr (Or.inr (invB_mono ts hB (cacheLE_refl cache) hBLE))
            exact ih rest cache (updateBest best P) bfin hInv' hHCrest hrun P₀ σ hc₀ hfir hfin
          · -- the popped program is incomplete: expand it
            rw [if_neg hcmp] at hrun
            have hcmp' : Property.Finished ∉ P.properties := hcmp
            have hInv' : InvHolds ts
                (expandFold ts profiler P (P.find_available_triples ts) rest cache).1
                (expandFold ts profiler P (P.find_available_triples ts) rest cache).2
                best := by
              intro S c hSc
              rcases expandFold_entry_src ts profiler P _ rest cache S c hSc with
                ⟨Q, hQ, hQS, hQc⟩ | hold
              · exact Or.inl ⟨Q, hQ, hQS, hQc⟩
              · by_cases hSP : S = P.properties
                · subst hSP
                  have hceq : c = P.cost := by
                    rw [hcacheP] at hold
                    exact (Option.some_inj.mp hold).symm
                  refine Or.inr (Or.inr ⟨fun hfin' => absurd hfin' hcmp', ?_⟩)
                  intro _ tid htid
                  obtain ⟨c', hc', hc'le⟩ :=
                    expandFold_processed ts profiler P _ rest cache tid htid
                  refine ⟨c', hc', ?_⟩
                  rw [hceq]
                  rw [with_a_new_triple_cost] at hc'le
                  exact hc'le
                · rcases hInv S c hold with ⟨Q, hQ, hQS, hQc⟩ | hC | hB
                  · rcases hsplit Q hQ with hQP | hQrest
                    · subst hQP
                      exact absurd hQS.symm (Ne.symm (fun h => hSP h.symm))
                    · exact Or.inl ⟨Q,
                        expandFold_heap_mono ts profiler P _ rest cache Q hQrest,
                        hQS, hQc⟩
                  · exact Or.inr (Or.inl hC)
                  · exact Or.inr (Or.inr (invB_mono ts hB
                      (expandFold_cacheLE ts profiler P _ rest cache)
                      (bestLE_refl best)))
            have hHC' := expandFold_heapCached ts profiler P
              (P.find_available_triples ts) rest cache hHCrest
            have hc₀' : ∃ c₀',
                (expandFold ts profiler P (P.find_available_triples ts) rest cache).2
                  P₀.properties = some c₀' ∧ c₀' ≤ P₀.cost := by
              obtain ⟨c₀, hc₀', hc₀le⟩ := hc₀
              obtain ⟨c₀', hc₀'', hle'⟩ :=
                expandFold_cacheLE ts profiler P (P.find_available_triples ts)
                  rest cache P₀.properties c₀ hc₀'
              exact ⟨c₀', hc₀'', le_trans hle' hc₀le⟩
            exact ih _ _ best bfin hInv' hHC' hrun P₀ σ hc₀' hfir hfin
        · -- cacheSkip is true: the popped program is superseded
          rw [hcs] at hrun
          rw [if_pos rfl] at hrun
          obtain ⟨cP, hcP, hcPlt⟩ := (cacheSkip_eq_true_iff cache P).mp hcs
          have hInv' : InvHolds ts rest cache best := by
            intro S c hSc
            rcases hInv S c hSc with ⟨Q, hQ, hQS, hQc⟩ | hC | hB
            · rcases hsplit Q hQ with hQP | hQrest
              · subst hQP
                exfalso
                rw [← hQS] at hSc
                rw [hcP] at hSc
                cases hSc
                rw [← hQc] at hcPlt
                exact lt_irrefl _ hcPlt
              · exact Or.inl ⟨Q, hQrest, hQS, hQc⟩
            · exact Or.inr (Or.inl hC)
            · exact Or.inr (Or.inr hB)
          exact ih rest cache best bfin hInv' hHCrest hrun P₀ σ hc₀ hfir hfin
      · -- bestSkip is true: the popped program cannot beat the best program
        rw [hbs] at hrun
        rw [if_pos rfl] at hrun
        obtain ⟨b, hb, hblt⟩ := (bestSkip_eq_true_iff best P).mp hbs
        have hInv' : InvHolds ts rest cache best := by
          intro S c hSc
          rcases hInv S c hSc with ⟨Q, hQ, hQS, hQc⟩ | hC | hB
          · rcases hsplit Q hQ with hQP | hQrest
            · subst hQP
              refine Or.inr (Or.inl ⟨b, hb, ?_⟩)
              rw [← hQc]
              exact hblt
            · exact Or.inl ⟨Q, hQrest, hQS, hQc⟩
          · exact Or.inr (Or.inl hC)
          · exact Or.inr (Or.inr hB)
        exact ih rest cache best bfin hInv' hHCrest hrun P₀ σ hc₀ hfir hfin

/-- C2 (amended): with `ecost = 0` for every program (as the code always
sets), whenever `a_star` finishes and returns a plan, that plan is optimal
among all triple sequences each of whose steps is returned by
`find_available_triples` of the running program: for every pair of such
sequences reaching a property set containing `Finished`, the returned plan's
accumulated cost is at most the cost of both. -/
theorem a_star_optimal (fuel : ℕ) (ts : IndexedHoareTripleSet)
    (initial_properties : List Property) (profiler : Profiler) (best : Program)
    (hrun : a_star fuel ts initial_properties profiler = some best)
    (σ₁ σ₂ : List ℕ)
    (h₁ : Firable ts profiler (Program.empty initial_properties) σ₁)
    (hf₁ : Property.Finished ∈
      (progAfter ts profiler (Program.empty initial_properties) σ₁).properties)
    (h₂ : Firable ts profiler (Program.empty initial_properties) σ₂)
    (hf₂ : Property.Finished ∈
      (progAfter ts profiler (Program.empty initial_properties) σ₂).properties) :
    best.cost ≤ (progAfter ts profiler (Program.empty initial_properties) σ₁).cost ∧
    best.cost ≤ (progAfter ts profiler (Program.empty initial_properties) σ₂).cost := by
  unfold a_star at hrun
  have hInv : InvHolds ts [Program.empty initial_properties]
      (Cache.insert (fun _ => none) initial_properties.toFinset 0) none := by
    intro S c hSc
    unfold Cache.insert at hSc
    by_cases hS : S = initial_properties.toFinset
    · rw [if_pos hS] at hSc
      cases hSc
      refine Or.inl ⟨Program.empty initial_properties, List.mem_cons_self _ _, ?_, rfl⟩
      rw [hS]
      rfl
    · rw [if_neg hS] at hSc
      cases hSc
  have hHC : HeapCached [Program.empty initial_properties]
      (Cache.insert (fun _ => none) initial_properties.toFinset 0) := by
    intro Q hQ
    rcases List.mem_cons.mp hQ with hQ | hQ
    · subst hQ
      exact ⟨0, cache_insert_self _ _ _, le_refl _⟩
    · cases hQ
  have hc₀ : ∃ c₀, (Cache.insert (fun _ => none) initial_properties.toFinset 0)
      (Program.empty initial_properties).properties = some c₀ ∧
      c₀ ≤ (Program.empty initial_properties).cost :=
    ⟨0, cache_insert_self _ _ _, le_refl _⟩
  exact ⟨aStarLoop_opt ts profiler fuel _ _ none best hInv hHC hrun _ σ₁ hc₀ h₁ hf₁,
    aStarLoop_opt ts profiler fuel _ _ none best hInv hHC hrun _ σ₂ hc₀ h₂ hf₂⟩

/-- Modelled from the spec (§4.5 availability): a sequence is spec-firable
when at each step every pre-condition of the fired triple is in the current
property set and at least one post-condition is not.  Unlike the code's
`find_available_triples`, this admits triples with an empty pre-condition
set. -/
def SpecFirable (ts : IndexedHoareTripleSet) (profiler : Profiler) :
    Program → List ℕ → Prop
  | _, [] => True
  | P, tid :: rest =>
    tid < ts.triples.length ∧
    (∀ p ∈ (ts.triple tid).pre_conditions, p ∈ P.properties) ∧
    (∃ q ∈ (ts.triple tid).post_conditions, q ∉ P.properties) ∧
    SpecFirable ts profiler (P.with_a_new_triple tid ts profiler) rest

/-- A triple set where `Finished` can be produced in one step by a triple
with no pre-conditions (id 0), while the code-reachable route takes two
steps (ids 1 and 2). -/
def detourTS : IndexedHoareTripleSet :=
  ⟨[⟨[], [Property.Finished], [], "", (default, default)⟩,
    ⟨[Property.identity 0], [Property.identity 1], [], "", (default, default)⟩,
    ⟨[Property.identity 1], [Property.Finished], [], "", (default, default)⟩]⟩

/-- The program `a_star` returns on `detourTS` from `[identity 0]`. -/
def detourBest : Program :=
  ⟨[1, 2], {Property.identity 0, Property.identity 1, Property.Finished},
    1/500000, 0⟩

/-- C2 counterexample: the sequence `[0]` is firable in the sense of the
spec's availability conditions (triple 0 has no pre-conditions and posts the
missing `Finished`) and reaches `Finished` at cost `epsilon`, yet `a_star`
returns the plan `[1, 2]` of cost `2 * epsilon`: empty-pre triples are
invisible to `find_available_triples`, so the returned plan is not optimal
over spec-firable sequences. -/
theorem a_star_optimal_counterexample :
    a_star 4 detourTS [Property.identity 0] exampleProfiler = some detourBest ∧
    SpecFirable detourTS exampleProfiler (Program.empty [Property.identity 0]) [0] ∧
    Property.Finished ∈ (progAfter detourTS exampleProfiler
      (Program.empty [Property.identity 0]) [0]).properties ∧
    ¬ (detourBest.cost ≤ (progAfter detourTS exampleProfiler
      (Program.empty [Property.identity 0]) [0]).cost) := by
  refine ⟨?_, ⟨by decide, by decide, by decide, trivial⟩, by decide, ?_⟩
  · norm_num +decide [a_star, aStarLoop, popMin, Program.empty, bestSkip, cacheSkip,
      updateBest, expandFold, Cache.insert, Program.find_available_triples,
      IndexedHoareTripleSet.triple, Program.is_complete, Program.total_cost,
      Program.with_a_new_triple, HoareTriple.get_cost, epsilon, detourTS, detourBest,
      Property.identity]
  · norm_num [progAfter, Program.with_a_new_triple, HoareTriple.get_cost, epsilon,
      Program.empty, detourBest]

theorem a_star_optimal_witness :
    a_star 4 detourTS [Property.identity 0] exampleProfiler = some detourBest ∧
    Firable detourTS exampleProfiler (Program.empty [Property.identity 0]) [1, 2] ∧
    Property.Finished ∈ (progAfter detourTS exampleProfiler
      (Program.empty [Property.identity 0]) [1, 2]).properties ∧
    (detourBest.cost ≤ (progAfter detourTS exampleProfiler
        (Program.empty [Property.identity 0]) [1, 2]).cost ∧
     detourBest.cost ≤ (progAfter detourTS exampleProfiler
        (Program.empty [Property.identity 0]) [1, 2]).cost) := by
  have hrun : a_star 4 detourTS [Property.identity 0] exampleProfiler
      = some detourBest := by
    norm_num +decide [a_star, aStarLoop, popMin, Program.empty, bestSkip, cacheSkip,
      updateBest, expandFold, Cache.insert, Program.find_available_triples,
      IndexedHoareTripleSet.triple, Program.is_complete, Program.total_cost,
      Program.with_a_new_triple, HoareTriple.get_cost, epsilon, detourTS, detourBest,
      Property.identity]
  have hfir : Firable detourTS exampleProfiler
      (Program.empty [Property.identity 0]) [1, 2] := ⟨by decide, by decide, trivial⟩
  have hfin : Property.Finished ∈ (progAfter detourTS exampleProfiler
      (Program.empty [Property.identity 0]) [1, 2]).properties := by decide
  exact ⟨hrun, hfir, hfin,
    a_star_optimal 4 detourTS [Property.identity 0] exampleProfiler detourBest hrun
      [1, 2] [1, 2] hfir hfin hfir hfin⟩

/-! ### Claim C9: the returned plan's `Finished` triple -/

theorem finished_mem_remove_irrelavent (S : Finset Property)
    (ts : IndexedHoareTripleSet) (h : Property.Finished ∈ S) :
    Property.Finished ∈ remove_irrelavent_properties S ts :=
  Finset.mem_filter.mpr ⟨h, fun hirr => hirr.1 rfl⟩

theorem stepProps_finished_iff (ts : IndexedHoareTripleSet) (S : Finset Property)
    (tid : ℕ) (hnf : Property.Finished ∉ S) :
    Property.Finished ∈ stepProps ts S tid ↔
      Property.Finished ∈ (ts.triple tid).post_conditions := by
  constructor
  · intro h
    have hU := remove_irrelavent_properties_subset _ ts h
    rcases Finset.mem_union.mp hU with h' | h'
    · exact absurd (Finset.mem_of_mem_filter _ h') hnf
    · exact List.mem_toFinset.mp h'
  · intro h
    exact finished_mem_remove_irrelavent _ ts
      (Finset.mem_union_right _ (List.mem_toFinset.mpr h))

/-- The plan-shape invariant: no non-final triple of the plan posts
`Finished`, and the active set contains `Finished` exactly when the last
triple of the plan posts it. -/
def PlanInv (ts : IndexedHoareTripleSet) (P : Program) : Prop :=
  (∀ tid ∈ P.triple_ids.dropLast,
    Property.Finished ∉ (ts.triple tid).post_conditions) ∧
  (Property.Finished ∈ P.properties ↔
    ∃ tid, P.triple_ids.getLast? = some tid ∧
      Property.Finished ∈ (ts.triple tid).post_conditions)

theorem planInv_step (ts : IndexedHoareTripleSet) (profiler : Profiler)
    (P : Program) (tid : ℕ) (hnf : Property.Finished ∉ P.properties)
    (hPI : PlanInv ts P) : PlanInv ts (P.with_a_new_triple tid ts profiler) := by
  obtain ⟨hdrop, hiff⟩ := hPI
  have hall : ∀ t ∈ P.triple_ids, Property.Finished ∉ (ts.triple t).post_conditions := by
    intro t ht hmem
    by_cases hnil : P.triple_ids = []
    · rw [hnil] at ht; cases ht
    · have hdec := List.dropLast_append_getLast hnil
      rw [← hdec] at ht
      rcases List.mem_append.mp ht with ht' | ht'
      · exact hdrop t ht' hmem
      · have hteq : t = P.triple_ids.getLast hnil := by simpa using ht'
        apply hnf
        apply hiff.mpr
        refine ⟨t, ?_, hmem⟩
        rw [hteq]
        exact (List.getLast?_eq_getLast _ hnil).symm ▸ rfl
  constructor
  · rw [with_a_new_triple_triple_ids, List.dropLast_concat]
    exact hall
  · rw [with_a_new_triple_triple_ids, with_a_new_triple_properties,
      List.getLast?_concat]
    constructor
    · intro h
      exact ⟨tid, rfl, (stepProps_finished_iff ts P.properties tid hnf).mp h⟩
    · rintro ⟨t, ht, hmem⟩
      cases Option.some_inj.mp ht
      exact (stepProps_finished_iff ts P.properties tid hnf).mpr hmem

theorem expandFold_mem_src (ts : IndexedHoareTripleSet) (profiler : Profiler)
    (P : Program) :
    ∀ (L : List ℕ) (heap : List Program) (cache : Cache) (Q : Program),
    Q ∈ (expandFold ts profiler P L heap cache).1 →
    Q ∈ heap ∨ ∃ tid, Q = P.with_a_new_triple tid ts profiler := by
  intro L
  induction L with
  | nil => intro heap cache Q hQ; exact Or.inl hQ
  | cons tid L ih =>
    intro heap cache Q hQ
    simp only [expandFold] at hQ
    rcases hc : cache (P.with_a_new_triple tid ts profiler).properties with _ | c
    · rw [hc] at hQ
      dsimp only at hQ
      rcases ih _ _ Q hQ with hQ' | hQ'
      · rcases List.mem_cons.mp hQ' with hQ'' | hQ''
        · exact Or.inr ⟨tid, hQ''⟩
        · exact Or.inl hQ''
      · exact Or.inr hQ'
    · rw [hc] at hQ
      dsimp only at hQ
      by_cases hle : c ≤ (P.with_a_new_triple tid ts profiler).cost
      · rw [if_pos hle] at hQ
        exact ih _ _ Q hQ
      · rw [if_neg hle] at hQ
        rcases ih _ _ Q hQ with hQ' | hQ'
        · rcases List.mem_cons.mp hQ' with hQ'' | hQ''
          · exact Or.inr ⟨tid, hQ''⟩
          · exact Or.inl hQ''
        · exact Or.inr hQ'

theorem aStarLoop_planInv (ts : IndexedHoareTripleSet) (profiler : Profiler) :
    ∀ (fuel : ℕ) (heap : List Program) (cache : Cache) (best : Option Program)
      (bfin : Program),
    (∀ Q ∈ heap, PlanInv ts Q) →
    (∀ b, best = some b → PlanInv ts b ∧ Property.Finished ∈ b.properties) →
    aStarLoop ts profiler fuel heap cache best = some bfin →
    PlanInv ts bfin ∧ Property.Finished ∈ bfin.properties := by
  intro fuel
  induction fuel with
  | zero =>
    intro heap cache best bfin _ hbest hrun
    simp only [aStarLoop] at hrun
    rcases hpop : popMin heap with _ | pr
    · rw [hpop] at hrun
      dsimp only at hrun
      exact hbest bfin hrun
    · rw [hpop] at hrun
      dsimp only at hrun
      cases hrun
  | succ fuel ih =>
    intro heap cache best bfin hheap hbest hrun
    simp only [aStarLoop] at hrun
    rcases hpop : popMin heap with _ | ⟨P, rest⟩
    · rw [hpop] at hrun
      dsimp only at hrun
      exact hbest bfin hrun
    · rw [hpop] at hrun
      dsimp only at hrun
      have hmemP := popMin_mem heap P rest hpop
      have hrestmem := popMin_mem_rest heap P rest hpop
      have hheaprest : ∀ Q ∈ rest, PlanInv ts Q := fun Q hQ => hheap Q (hrestmem Q hQ)
      rcases hbs : bestSkip best P with _ | _
      · rw [hbs] at hrun
        rw [if_neg (by decide : ¬ (false = true))] at hrun
        rcases hcs : cacheSkip cache P with _ | _
        · rw [hcs] at hrun
          rw [if_neg (by decide : ¬ (false = true))] at hrun
          by_cases hcmp : P.is_complete
          · rw [if_pos hcmp] at hrun
            refine ih rest cache (updateBest best P) bfin hheaprest ?_ hrun
            intro b hb
            cases best with
            | none =>
              cases Option.some_inj.mp hb
              exact ⟨hheap P hmemP, hcmp⟩
            | some b0 =>
              unfold updateBest at hb
              dsimp only at hb
              by_cases hlt : P.cost < b0.cost
              · rw [if_pos hlt] at hb
                cases Option.some_inj.mp hb
                exact ⟨hheap P hmemP, hcmp⟩
              · rw [if_neg hlt] at hb
                cases Option.some_inj.mp hb
                exact hbest _ rfl
          · rw [if_neg hcmp] at hrun
            refine ih _ _ best bfin ?_ hbest hrun
            intro Q hQ
            rcases expandFold_mem_src ts profiler P _ rest cache Q hQ with hQ' | ⟨tid, hQ'⟩
            · exact hheaprest Q hQ'
            · subst hQ'
              exact planInv_step ts profiler P tid hcmp (hheap P hmemP)
        · rw [hcs] at hrun
          rw [if_pos rfl] at hrun
          exact ih rest cache best bfin hheaprest hbest hrun
      · rw [hbs] at hrun
        rw [if_pos rfl] at hrun
        exact ih rest cache best bfin hheaprest hbest hrun

/-- C9 (amended): when the initial properties do not contain `Finished`,
every plan returned by `a_star` contains exactly one triple whose
post-conditions contain `Finished`, and that triple is the last element of the
returned triple sequence. -/
theorem a_star_unique_finished (fuel : ℕ) (ts : IndexedHoareTripleSet)
    (initial_properties : List Property) (profiler : Profiler) (best : Program)
    (hrun : a_star fuel ts initial_properties profiler = some best)
    (hninit : Property.Finished ∉ initial_properties) :
    (∃ tid, best.triple_ids.getLast? = some tid ∧
       Property.Finished ∈ (ts.triple tid).post_conditions) ∧
    best.triple_ids.countP
      (fun tid => decide (Property.Finished ∈ (ts.triple tid).post_conditions)) = 1 := by
  unfold a_star at hrun
  have hseed : PlanInv ts (Program.empty initial_properties) := by
    constructor
    · intro tid htid
      simp [Program.empty] at htid
    · simp only [Program.empty, List.mem_toFinset, List.getLast?_nil]
      constructor
      · intro h; exact absurd h hninit
      · rintro ⟨tid, ht, _⟩; cases ht
  obtain ⟨⟨hdrop, hiff⟩, hfin⟩ := aStarLoop_planInv ts profiler fuel
    [Program.empty initial_properties] _ none best
    (fun Q hQ => by
      rcases List.mem_cons.mp hQ with hQ | hQ
      · rw [hQ]; exact hseed
      · cases hQ)
    (fun b hb => by cases hb) hrun
  obtain ⟨tid, hlast, hpost⟩ := hiff.mp hfin
  have hnil : best.triple_ids ≠ [] := by
    intro h
    rw [h] at hlast
    cases hlast
  refine ⟨⟨tid, hlast, hpost⟩, ?_⟩
  have hdec := List.dropLast_append_getLast hnil
  have hlasteq : best.triple_ids.getLast hnil = tid := by
    have := List.getLast?_eq_getLast best.triple_ids hnil
    rw [this] at hlast
    exact Option.some_inj.mp hlast
  rw [← hdec, List.countP_append]
  have h0 : best.triple_ids.dropLast.countP
      (fun t => decide (Property.Finished ∈ (ts.triple t).post_conditions)) = 0 := by
    rw [List.countP_eq_zero]
    intro t ht
    simpa using hdrop t ht
  have h1 : List.countP
      (fun t => decide (Property.Finished ∈ (ts.triple t).post_conditions))
      [best.triple_ids.getLast hnil] = 1 := by
    rw [hlasteq]
    simp [hpost]
  rw [h0, h1]

/-- C9 counterexample: when the initial properties already contain
`Finished`, the seed program is complete and `a_star` returns it with an
EMPTY plan, which contains no triple posting `Finished` at all. -/
theorem a_star_unique_finished_counterexample :
    a_star 2 (⟨[]⟩ : IndexedHoareTripleSet) [Property.Finished] exampleProfiler =
      some (Program.empty [Property.Finished]) ∧
    (Program.empty [Property.Finished]).triple_ids.countP
      (fun tid => decide (Property.Finished ∈
        ((⟨[]⟩ : IndexedHoareTripleSet).triple tid).post_conditions)) = 0 := by
  refine ⟨?_, by decide⟩
  norm_num +decide [a_star, aStarLoop, popMin, Program.empty, bestSkip, cacheSkip,
    updateBest, expandFold, Cache.insert, Program.find_available_triples,
    IndexedHoareTripleSet.triple, Program.is_complete, Program.total_cost,
    Program.with_a_new_triple, HoareTriple.get_cost, epsilon]

theorem a_star_unique_finished_witness :
    a_star 3 onePreTS [Property.identity 0] exampleProfiler =
      some ⟨[0], {Property.identity 0, Property.Finished}, 1/1000000, 0⟩ ∧
    Property.Finished ∉ [Property.identity 0] ∧
    ((∃ tid, (⟨[0], {Property.identity 0, Property.Finished}, 1/1000000, 0⟩ :
        Program).triple_ids.getLast? = some tid ∧
       Property.Finished ∈ (onePreTS.triple tid).post_conditions) ∧
     (⟨[0], {Property.identity 0, Property.Finished}, 1/1000000, 0⟩ :
        Program).triple_ids.countP
       (fun tid => decide (Property.Finished ∈
         (onePreTS.triple tid).post_conditions)) = 1) := by
  have hrun : a_star 3 onePreTS [Property.identity 0] exampleProfiler =
      some ⟨[0], {Property.identity 0, Property.Finished}, 1/1000000, 0⟩ := by
    norm_num +decide [a_star, aStarLoop, popMin, Program.empty, bestSkip, cacheSkip,
      updateBest, expandFold, Cache.insert, Program.find_available_triples,
      IndexedHoareTripleSet.triple, Program.is_complete, Program.total_cost,
      Program.with_a_new_triple, HoareTriple.get_cost, epsilon, onePreTS,
      Property.identity]
  exact ⟨hrun, by decide,
    a_star_unique_finished 3 onePreTS [Property.identity 0] exampleProfiler _ hrun
      (by decide)⟩
